import Mathlib

/-!
Verification of the slack-to-discord migration pipeline.

This file gives a shallow embedding of the program's data model and
operations (src/lib.rs, src/slack.rs, src/discord.rs) and proves the
specification claims about them.  Text is modelled as lists of
characters, the sqlite tables as in-memory lists of rows, and the
network (discord REST calls, attachment downloads) as oracles passed
in as parameters.  Effects are made visible as an explicit event trace.
-/

/-- Text values: Rust String, modelled as a list of characters. -/
abbrev Str := List Char

/-- Model of slack::TimeStamp, which wraps a chrono DateTime as the pair
of its unix seconds (i64, chrono timestamp) and subsecond nanoseconds
(u32, timestamp_subsec_nanos). -/
structure TimeStamp where
  secs : Int
  nsecs : Nat
deriving DecidableEq, Repr

/-- Chronological order on timestamps (the derived Ord on DateTime used
by sort_by_key in get_channels_stream): lexicographic on (secs, nsecs). -/
def TimeStamp.tle (a b : TimeStamp) : Prop :=
  a.secs < b.secs ∨ (a.secs = b.secs ∧ a.nsecs ≤ b.nsecs)

/-- Strict chronological order on timestamps. -/
def TimeStamp.tlt (a b : TimeStamp) : Prop :=
  a.secs < b.secs ∨ (a.secs = b.secs ∧ a.nsecs < b.nsecs)

instance : DecidablePred (fun p : TimeStamp × TimeStamp => TimeStamp.tle p.1 p.2) := by
  intro p; unfold TimeStamp.tle; infer_instance

instance (a b : TimeStamp) : Decidable (TimeStamp.tle a b) := by
  unfold TimeStamp.tle; infer_instance

instance (a b : TimeStamp) : Decidable (TimeStamp.tlt a b) := by
  unfold TimeStamp.tlt; infer_instance

/-! ### Decimal rendering and parsing of timestamps

The sqlx Encode impl for TimeStamp writes the string
format!("{}.{}", secs, nsecs); parse_timestamp reads it back by
splitting on a dot and calling str::parse.  We model the Display
rendering of i64/u32 and str::parse digit by digit. -/

/-- Fuel-driven digit rendering; the fuel only bounds the recursion
depth so that the definition is structural. -/
def natReprAux (fuel n : Nat) : Str :=
  match fuel with
  | 0 => []
  | fuel + 1 =>
    if n < 10 then [Char.ofNat (48 + n)]
    else natReprAux fuel (n / 10) ++ [Char.ofNat (48 + n % 10)]

/-- Decimal digits of a natural number, most significant first
(Display for unsigned integers in Rust). -/
def natRepr (n : Nat) : Str := natReprAux (n + 1) n

theorem natReprAux_congr :
    ∀ (n f1 f2 : Nat), n < f1 → n < f2 → natReprAux f1 n = natReprAux f2 n := by
  intro n
  induction n using Nat.strong_induction_on with
  | _ n ih =>
    intro f1 f2 h1 h2
    match f1, f2 with
    | 0, _ => omega
    | _, 0 => omega
    | g1 + 1, g2 + 1 =>
      by_cases hn : n < 10
      · simp [natReprAux, hn]
      · simp only [natReprAux, if_neg hn]
        congr 1
        exact ih (n / 10) (Nat.div_lt_self (by omega) (by omega)) g1 g2
          (by omega) (by omega)

/-- Recursion equation of natRepr, independent of the fuel. -/
theorem natRepr_eqn (n : Nat) :
    natRepr n = if n < 10 then [Char.ofNat (48 + n)]
                else natRepr (n / 10) ++ [Char.ofNat (48 + n % 10)] := by
  by_cases hn : n < 10
  · simp [natRepr, natReprAux, hn]
  · show natReprAux (n + 1) n = _
    simp only [natReprAux, if_neg hn]
    congr 1
    exact natReprAux_congr (n / 10) n (n / 10 + 1)
      (Nat.div_lt_self (by omega) (by omega)) (by omega)

/-- Display for i64: a minus sign followed by the digits of the
absolute value for negative numbers, plain digits otherwise. -/
def intRepr (i : Int) : Str :=
  if i < 0 then '-' :: natRepr i.natAbs else natRepr i.toNat

/-- Value of one ASCII digit character, none for a non-digit. -/
def digitVal (c : Char) : Option Nat :=
  if '0' ≤ c ∧ c ≤ '9' then some (c.toNat - 48) else none

/-- Accumulating decimal parser over a character list. -/
def parseDigitsGo (acc : Nat) : Str → Option Nat
  | [] => some acc
  | c :: rest =>
    match digitVal c with
    | some d => parseDigitsGo (acc * 10 + d) rest
    | none => none

/-- Parse a nonempty all-digit string (the core of str::parse for
unsigned integers, before any sign handling). -/
def parseDigits : Str → Option Nat
  | [] => none
  | c :: rest => parseDigitsGo 0 (c :: rest)

/-- Model of str::parse for u32: optional leading plus sign, digits,
result must fit in 32 bits. -/
def parseU32 (s : Str) : Option Nat :=
  match s with
  | [] => none
  | c :: rest =>
    let body := if c = '+' then rest else c :: rest
    match parseDigits body with
    | some n => if n < 2 ^ 32 then some n else none
    | none => none

/-- Model of str::parse for i64: optional sign, digits, i64 range check. -/
def parseI64 (s : Str) : Option Int :=
  match s with
  | [] => none
  | c :: rest =>
    if c = '-' then
      match parseDigits rest with
      | some n => if (n : Int) ≤ 2 ^ 63 then some (-(n : Int)) else none
      | none => none
    else
      match parseDigits (if c = '+' then rest else c :: rest) with
      | some n => if (n : Int) < 2 ^ 63 then some (n : Int) else none
      | none => none

/-- Model of the sqlx Encode impl for TimeStamp (slack.rs encode_by_ref):
the string format!("{}.{}", secs, nsecs). -/
def encodeTs (t : TimeStamp) : Str :=
  intRepr t.secs ++ '.' :: natRepr t.nsecs

/-- Character test used to model str::split on a dot. -/
def notDot (c : Char) : Bool := c ≠ '.'

/-- Model of slack.rs parse_timestamp: split the string on dots, parse
the first segment as i64 seconds and the second as u32 nanoseconds;
missing segment or parse failure is an error (none). -/
def parse_timestamp (s : Str) : Option TimeStamp :=
  let sec_part := s.takeWhile notDot
  match s.dropWhile notDot with
  | [] => none
  | _ :: r =>
    match parseI64 sec_part, parseU32 (r.takeWhile notDot) with
    | some secs, some nsecs => some ⟨secs, nsecs⟩
    | _, _ => none

/-! Lemmas about rendering and parsing. -/

theorem digitVal_ofNat {d : Nat} (h : d < 10) :
    digitVal (Char.ofNat (48 + d)) = some d := by
  interval_cases d <;> decide

theorem natRepr_ne_empty (n : Nat) : natRepr n ≠ [] := by
  rw [natRepr_eqn]
  split
  · simp
  · simp

theorem digit_char_range {d : Nat} (h : d < 10) :
    '0' ≤ Char.ofNat (48 + d) ∧ Char.ofNat (48 + d) ≤ '9' := by
  interval_cases d <;> decide

theorem natRepr_digits (n : Nat) : ∀ c ∈ natRepr n, '0' ≤ c ∧ c ≤ '9' := by
  induction n using Nat.strong_induction_on with
  | _ n ih =>
    rw [natRepr_eqn]
    split
    · rename_i h
      intro c hc
      simp only [List.mem_singleton] at hc
      subst hc
      exact digit_char_range h
    · rename_i h
      intro c hc
      simp only [List.mem_append, List.mem_singleton] at hc
      rcases hc with hc | hc
      · exact ih (n / 10) (Nat.div_lt_self (by omega) (by omega)) c hc
      · subst hc
        exact digit_char_range (Nat.mod_lt _ (by omega))

theorem natRepr_no_dot (n : Nat) : ∀ c ∈ natRepr n, c ≠ '.' := by
  intro c hc
  have := natRepr_digits n c hc
  rcases this with ⟨h1, h2⟩
  intro h
  subst h
  revert h1 h2
  decide

theorem parseDigitsGo_append (acc : Nat) (a b : Str) :
    parseDigitsGo acc (a ++ b) =
      (parseDigitsGo acc a).bind (fun m => parseDigitsGo m b) := by
  induction a generalizing acc with
  | nil => simp [parseDigitsGo]
  | cons c rest ih =>
    simp only [List.cons_append, parseDigitsGo]
    cases digitVal c with
    | some d => simp [ih]
    | none => simp

theorem parseDigitsGo_natRepr (acc n : Nat) :
    parseDigitsGo acc (natRepr n) = some (acc * 10 ^ (natRepr n).length + n) := by
  induction n using Nat.strong_induction_on generalizing acc with
  | _ n ih =>
    rw [natRepr_eqn]
    split
    · rename_i h
      simp [parseDigitsGo, digitVal_ofNat h]
    · rename_i h
      rw [parseDigitsGo_append]
      rw [ih (n / 10) (Nat.div_lt_self (by omega) (by omega))]
      have h10 : n % 10 < 10 := Nat.mod_lt _ (by omega)
      simp only [Option.some_bind, parseDigitsGo, digitVal_ofNat h10,
        List.length_append, List.length_singleton]
      congr 1
      rw [pow_succ]
      have hdm : 10 * (n / 10) + n % 10 = n := by omega
      have hring : (acc * 10 ^ (natRepr (n / 10)).length + n / 10) * 10 + n % 10 =
          acc * (10 ^ (natRepr (n / 10)).length * 10) + (10 * (n / 10) + n % 10) := by ring
      rw [hring, hdm]

theorem parseDigits_natRepr (n : Nat) : parseDigits (natRepr n) = some n := by
  rcases h : natRepr n with _ | ⟨c, rest⟩
  · exact absurd h (natRepr_ne_empty n)
  · have h0 := parseDigitsGo_natRepr 0 n
    rw [h] at h0
    simp only [Nat.zero_mul, Nat.zero_add] at h0
    simp [parseDigits, h0]

theorem natRepr_head_digit (n : Nat) :
    ∃ c rest, natRepr n = c :: rest ∧ c ≠ '-' ∧ c ≠ '+' := by
  rcases h : natRepr n with _ | ⟨c, rest⟩
  · exact absurd h (natRepr_ne_empty n)
  · refine ⟨c, rest, rfl, ?_, ?_⟩
    · have hd := natRepr_digits n c (h ▸ List.mem_cons_self c rest)
      intro hc; subst hc; revert hd; decide
    · have hd := natRepr_digits n c (h ▸ List.mem_cons_self c rest)
      intro hc; subst hc; revert hd; decide

theorem parseI64_intRepr (i : Int) (hlo : -(2 ^ 63) ≤ i) (hhi : i < 2 ^ 63) :
    parseI64 (intRepr i) = some i := by
  unfold intRepr
  split
  · rename_i hneg
    have habs : (i.natAbs : Int) ≤ 2 ^ 63 := by omega
    simp only [parseI64, if_pos rfl, parseDigits_natRepr, habs, if_pos]
    congr 1
    omega
  · rename_i hpos
    push_neg at hpos
    obtain ⟨c, rest, heq, hm, hp⟩ := natRepr_head_digit i.toNat
    rw [heq]
    have hpd : parseDigits (c :: rest) = some i.toNat := heq ▸ parseDigits_natRepr i.toNat
    have hrange : ((i.toNat : Int)) < 2 ^ 63 := by omega
    simp only [parseI64, if_neg hm, if_neg hp, hpd, hrange, if_pos]
    congr 1
    omega

theorem notDot_true {c : Char} (hc : c ≠ '.') : notDot c = true := by
  simp [notDot, hc]

theorem takeWhile_no_dot_append (a b : Str) (ha : ∀ c ∈ a, c ≠ '.') :
    (a ++ '.' :: b).takeWhile notDot = a ∧
    (a ++ '.' :: b).dropWhile notDot = '.' :: b := by
  induction a with
  | nil =>
    constructor
    · rw [List.nil_append, List.takeWhile_cons]
      simp [notDot]
    · rw [List.nil_append, List.dropWhile_cons]
      simp [notDot]
  | cons c rest ih =>
    have hc := notDot_true (ha c (List.mem_cons_self c rest))
    have ihr := ih (fun x hx => ha x (List.mem_cons_of_mem c hx))
    constructor
    · rw [List.cons_append, List.takeWhile_cons, hc]
      simp [ihr.1]
    · rw [List.cons_append, List.dropWhile_cons, hc]
      simp [ihr.2]

theorem intRepr_no_dot (i : Int) : ∀ c ∈ intRepr i, c ≠ '.' := by
  unfold intRepr
  split
  · intro c hc
    simp only [List.mem_cons] at hc
    rcases hc with hc | hc
    · subst hc; decide
    · exact natRepr_no_dot _ c hc
  · exact natRepr_no_dot _

theorem takeWhile_of_all (b : Str) (hb : ∀ c ∈ b, c ≠ '.') :
    b.takeWhile notDot = b := by
  induction b with
  | nil => rfl
  | cons c rest ih =>
    have hc := notDot_true (hb c (List.mem_cons_self c rest))
    rw [List.takeWhile_cons, hc]
    simp [ih (fun x hx => hb x (List.mem_cons_of_mem c hx))]

/-- C10: decoding the string produced by the sqlx Encode implementation
(format secs.nsecs) with parse_timestamp yields exactly the original
timestamp, so a ledger key written in one run is matched by the same
timestamp's encoding in a later run.  The hypotheses state that the
seconds fit in an i64 and the nanoseconds in a u32, which hold for every
value the Rust types can produce. -/
theorem C10_encode_parse_roundtrip (t : TimeStamp)
    (hlo : -(2 ^ 63) ≤ t.secs) (hhi : t.secs < 2 ^ 63)
    (hn : t.nsecs < 2 ^ 32) :
    parse_timestamp (encodeTs t) = some t := by
  unfold parse_timestamp encodeTs
  obtain ⟨htake, hdrop⟩ :=
    takeWhile_no_dot_append (intRepr t.secs) (natRepr t.nsecs) (intRepr_no_dot t.secs)
  rw [htake, hdrop]
  simp only
  rw [takeWhile_of_all (natRepr t.nsecs) (natRepr_no_dot t.nsecs)]
  rw [parseI64_intRepr t.secs hlo hhi]
  have : parseU32 (natRepr t.nsecs) = some t.nsecs := by
    obtain ⟨c, rest, heq, hm, hp⟩ := natRepr_head_digit t.nsecs
    rw [heq]
    have hpd : parseDigits (c :: rest) = some t.nsecs := heq ▸ parseDigits_natRepr t.nsecs
    simp only [parseU32, if_neg hp, hpd, hn, if_pos]
  rw [this]

/-- Witness for C10 at a concrete timestamp. -/
theorem C10_encode_parse_roundtrip_witness :
    parse_timestamp (encodeTs ⟨1727, 500⟩) = some ⟨1727, 500⟩ :=
  C10_encode_parse_roundtrip ⟨1727, 500⟩ (by decide) (by decide) (by decide)

/-! ### Data model of the export and of the persistent store

Types below translate src/slack.rs, src/discord.rs and the sqlite rows
of src/lib.rs.  Byte strings are lists of naturals. -/

/-- slack.rs MessageSubType. -/
inductive MessageSubType where
  | Join | Purpose | ThreadBroadcast | Tombstone | Topic
  | ReminderAdd | ChannelName | Archive | Unarchive
deriving DecidableEq, Repr

/-- slack.rs File: hosted attachments carry a download url; tombstone,
external and snippet attachments carry no retrievable bytes. -/
inductive SlackFile where
  | Hosted (name title url_private_download : Str)
  | Tombstone
  | External (name title : Str)
  | Snippet
deriving DecidableEq, Repr

/-- slack.rs Message (its single Message variant). -/
structure Message where
  text : Str
  files : Option (List SlackFile)
  user : Str
  subtype : Option MessageSubType
  ts : TimeStamp
  reply_count : Option Nat
  thread_ts : Option TimeStamp
deriving DecidableEq, Repr

/-- slack.rs User. -/
structure User where
  id : Str
  real_name : Option Str
  name : Str
deriving DecidableEq, Repr

/-- slack.rs User::readable_name: the real name when set, otherwise the
account handle. -/
def User.readable_name (u : User) : Str :=
  match u.real_name with
  | some r => r
  | none => u.name

/-- lib.rs SlackChannel: a source channel with its parsed messages. -/
structure SlackChannel where
  id : Str
  name : Str
  messages : List Message
deriving DecidableEq, Repr

/-- discord.rs ChannelType. -/
inductive ChannelType where
  | GuildText | GuildVoice | GuildCategory | PublicThread
deriving DecidableEq, Repr

/-- discord.rs ChannelGet (ids kept as plain strings). -/
structure ChannelGet where
  name : Str
  id : Str
  channel_type : ChannelType
  parent_id : Option Str
  message_count : Option Nat
deriving DecidableEq, Repr

/-- discord.rs MessageGet: the destination response to a posted message. -/
structure MessageGet where
  id : Str
  channel_id : Str
deriving DecidableEq, Repr

/-- discord.rs FilePost: a named typed byte payload for upload. -/
structure FilePost where
  mime : Str
  title : Str
  body : List Nat
deriving DecidableEq, Repr

/-- lib.rs PostRecord: one row of the posts table (the dedup ledger),
keyed by (slack_channel_id, slack_ts); slack_ts is stored as the encoded
text produced by the TimeStamp Encode impl. -/
structure PostRecord where
  id : Str
  slack_channel_id : Str
  discord_channel_id : Str
  slack_ts : Str
  discord_thread_id : Option Str
deriving DecidableEq, Repr

/-- lib.rs FileRow: one row of the files table (the content cache). -/
structure FileRow where
  url : Str
  inner : List Nat
  mime : Str
deriving DecidableEq, Repr

/-- The two sqlite tables owned by Db, as in-memory lists in insertion
order. -/
structure DbState where
  posts : List PostRecord
  files : List FileRow
deriving DecidableEq, Repr

/-- Observable effects of the pipeline, in program order. -/
inductive Event where
  | netGetFile (url : Str)
  | postMessage (channel : Str) (content : Str) (files : List (Str × FilePost))
  | startThread (channel : Str) (message : Str) (name : Str)
  | getChannel (channel : Str)
  | ledgerInsert (r : PostRecord)
  | sleepMs (ms : Nat)
deriving DecidableEq, Repr

/-- lib.rs DbError, restricted to the fetch_file failure modes that the
spec describes (the sqlx transport errors GetSql and InsertSql are not
modelled: the in-memory table never fails). -/
inductive DbError where
  | FetchFromUrl
  | NoCntentType
  | InvalidContentType
deriving DecidableEq, Repr

/-- Failure modes of post_channel.  The Rust code surfaces these as
anyhow errors with context; the names follow the spec taxonomy. -/
inductive PipeError where
  | FetchFile (e : DbError)
  | OrphanReply
  | MissingThread
  | PostFailed
  | StartThreadFailed
  | GetChannelFailed
  | ChannelNotFound
deriving DecidableEq, Repr

/-- An HTTP response for an attachment download: the raw content-type
header bytes when present, and the body bytes unless reading it fails. -/
structure HttpResponse where
  content_type : Option (List Nat)
  body : Option (List Nat)
deriving DecidableEq, Repr

/-- Network oracle for attachment downloads: none models a failed GET. -/
abbrev FileNet := Str → Option HttpResponse

/-- reqwest HeaderValue::to_str: succeeds exactly when every byte is
visible ASCII (or space), yielding the header as text. -/
def headerToStr (bs : List Nat) : Option Str :=
  if bs.all (fun b => decide (32 ≤ b ∧ b < 127)) then
    some (bs.map (fun b => Char.ofNat b))
  else none

/-- Model of Db::fetch_file (lib.rs): look the url up in the files
table and return the cached row if present; otherwise GET the url,
require a content-type header representable as text, read the body,
persist the new row, and return it.  The result is the event list, the
db state after the call, and the row or error. -/
def fetch_file (net : FileNet) (db : DbState) (url : Str) :
    List Event × DbState × Except DbError FileRow :=
  match db.files.find? (fun r => decide (r.url = url)) with
  | some row => ([], db, .ok row)
  | none =>
    match net url with
    | none => ([.netGetFile url], db, .error .FetchFromUrl)
    | some resp =>
      match resp.content_type with
      | none => ([.netGetFile url], db, .error .NoCntentType)
      | some hdr =>
        match headerToStr hdr with
        | none => ([.netGetFile url], db, .error .InvalidContentType)
        | some mime =>
          match resp.body with
          | none => ([.netGetFile url], db, .error .FetchFromUrl)
          | some bytes =>
            ([.netGetFile url],
             { db with files := db.files ++ [⟨url, bytes, mime⟩] },
             .ok ⟨url, bytes, mime⟩)

/-! ### Author-id substitution

lib.rs replace_slack_id_to_real_name folds str::replace over the id
to name dictionary, in the iteration order of the HashMap (modelled as
the order of an association list). -/

/-- Fuel-driven core of str::replace; the fuel only bounds the recursion
depth so that the definition is structural. -/
def rustReplaceAux (pat rep : Str) : Nat → Str → Str
  | _, [] => if pat = [] then rep else []
  | 0, s => s
  | fuel + 1, c :: rest =>
    if pat ≠ [] ∧ pat.isPrefixOf (c :: rest) then
      rep ++ rustReplaceAux pat rep fuel (List.drop (pat.length - 1) rest)
    else
      (if pat = [] then rep else []) ++ c :: rustReplaceAux pat rep fuel rest

/-- Model of Rust str::replace: replace every non-overlapping occurrence
of pat, scanning left to right; an empty pattern matches at every
character boundary. -/
def rustReplace (pat rep s : Str) : Str := rustReplaceAux pat rep s.length s

theorem rustReplaceAux_congr (pat rep : Str) :
    ∀ (n : Nat) (s : Str) (f1 f2 : Nat), s.length ≤ n → s.length ≤ f1 →
      s.length ≤ f2 → rustReplaceAux pat rep f1 s = rustReplaceAux pat rep f2 s := by
  intro n
  induction n with
  | zero =>
    intro s f1 f2 hn _ _
    have hs : s = [] := List.length_eq_zero.mp (by omega)
    subst hs
    cases f1 <;> cases f2 <;> rfl
  | succ n ih =>
    intro s f1 f2 hn h1 h2
    cases s with
    | nil => cases f1 <;> cases f2 <;> rfl
    | cons c rest =>
      simp only [List.length_cons] at hn h1 h2
      match f1, f2 with
      | g1 + 1, g2 + 1 =>
        simp only [rustReplaceAux]
        by_cases hp : pat ≠ [] ∧ pat.isPrefixOf (c :: rest)
        · rw [if_pos hp, if_pos hp]
          congr 1
          have hd : (List.drop (pat.length - 1) rest).length ≤ rest.length := by
            rw [List.length_drop]; omega
          exact ih _ g1 g2 (by omega) (by omega) (by omega)
        · rw [if_neg hp, if_neg hp]
          have : rustReplaceAux pat rep g1 rest = rustReplaceAux pat rep g2 rest :=
            ih rest g1 g2 (by omega) (by omega) (by omega)
          rw [this]

/-- Recursion equations of rustReplace, independent of the fuel. -/
theorem rustReplace_nil (pat rep : Str) :
    rustReplace pat rep [] = if pat = [] then rep else [] := rfl

theorem rustReplace_cons (pat rep : Str) (c : Char) (rest : Str) :
    rustReplace pat rep (c :: rest) =
      if pat ≠ [] ∧ pat.isPrefixOf (c :: rest) then
        rep ++ rustReplace pat rep (List.drop (pat.length - 1) rest)
      else
        (if pat = [] then rep else []) ++ c :: rustReplace pat rep rest := by
  show rustReplaceAux pat rep (rest.length + 1) (c :: rest) = _
  simp only [rustReplaceAux]
  by_cases hp : pat ≠ [] ∧ pat.isPrefixOf (c :: rest)
  · rw [if_pos hp, if_pos hp]
    congr 1
    have hd : (List.drop (pat.length - 1) rest).length ≤ rest.length := by
      rw [List.length_drop]; omega
    exact rustReplaceAux_congr pat rep rest.length _ _ _ hd hd (by rfl)
  · rw [if_neg hp, if_neg hp]
    rfl


/-- lib.rs replace_slack_id_to_real_name: fold str::replace over the
dictionary entries. -/
def replace_slack_id_to_real_name (dict : List (Str × Str)) (src : Str) : Str :=
  dict.foldl (fun s p => rustReplace p.1 p.2 s) src

/-! ### The migration pipeline

post_channel (lib.rs) consumes the discord REST client, the sqlite Db
and a source channel.  Discord calls are modelled by an oracle consumed
call by call, attachment downloads by a url-keyed oracle, and the
chrono rendering ts.jtc_date().to_rfc2822() by a caller-supplied
function. -/

/-- One discord REST response: a message object, a channel object, or a
transport or schema failure. -/
inductive NetResp where
  | msg (m : MessageGet)
  | chan (c : ChannelGet)
  | fail
deriving Repr

/-- Environment of a pipeline run: the discord response oracle (indexed
by how many discord calls happened before), the attachment network, and
the timestamp rendering used in the message header. -/
structure Env where
  net : Nat → NetResp
  fileNet : FileNet
  renderTs : TimeStamp → Str

/-- Pipeline state: the persistent db plus the count of discord calls
made so far (the oracle cursor). -/
structure PipeState where
  db : DbState
  ctr : Nat
deriving DecidableEq, Repr

/-- discord.rs post_message as seen by the pipeline: one REST call that
yields a MessageGet or fails. -/
def call_post_message (env : Env) (ctr : Nat) (channel content : Str)
    (files : List (Str × FilePost)) : Event × Nat × Except PipeError MessageGet :=
  (.postMessage channel content files, ctr + 1,
   match env.net ctr with
   | .msg m => .ok m
   | _ => .error .PostFailed)

/-- discord.rs start_thread: one REST call that yields the new thread
channel or fails. -/
def call_start_thread (env : Env) (ctr : Nat) (channel messageId threadName : Str) :
    Event × Nat × Except PipeError ChannelGet :=
  (.startThread channel messageId threadName, ctr + 1,
   match env.net ctr with
   | .chan c => .ok c
   | _ => .error .StartThreadFailed)

/-- discord.rs get_channel: one REST call that yields a channel object
or fails (used only to verify an already-migrated thread). -/
def call_get_channel (env : Env) (ctr : Nat) (channel : Str) :
    Event × Nat × Except PipeError ChannelGet :=
  (.getChannel channel, ctr + 1,
   match env.net ctr with
   | .chan c => .ok c
   | _ => .error .GetChannelFailed)

/-- Ledger lookup: select * from posts where slack_ts = key and
slack_channel_id = sid (first matching row). -/
def ledger_lookup (posts : List PostRecord) (sid key : Str) : Option PostRecord :=
  posts.find? (fun r => decide (r.slack_ts = key ∧ r.slack_channel_id = sid))

/-- Attachment resolution (lib.rs lines 336-361): every hosted file is
fetched through the cache (in stream order, all of them, even after an
earlier failure), non-hosted files are dropped; the collected results
are the per-file outcomes in order. -/
def resolve_files (net : FileNet) (db : DbState) :
    List SlackFile → List Event × DbState × List (Except DbError (Str × FilePost))
  | [] => ([], db, [])
  | .Hosted name title url :: rest =>
    let (ev, db', res) := fetch_file net db url
    let out := res.map (fun row => (name, FilePost.mk row.mime title row.inner))
    let (evs, db'', outs) := resolve_files net db' rest
    (ev ++ evs, db'', out :: outs)
  | _ :: rest => resolve_files net db rest

/-- collect::<Result<_, _>>: the list of values, or the first error. -/
def collectResults : List (Except DbError (Str × FilePost)) →
    Except DbError (List (Str × FilePost))
  | [] => .ok []
  | .error e :: _ => .error e
  | .ok v :: rest => (collectResults rest).map (fun vs => v :: vs)

/-- Header text of a rendered message (lib.rs line 332): author, the
localized timestamp, then the message body. -/
def render_text (env : Env) (m : Message) : Str :=
  ('*' :: '*' :: m.user) ++ ('*' :: '*' :: ' ' :: env.renderTs m.ts) ++
    '\n' :: m.text ++ ['\n']

/-- Skip branch of post_channel (lib.rs lines 426-433): the message is
already on the db; when its row carries a destination thread id, the
thread is looked up at the destination (read-only verification). -/
def skip_message (env : Env) (st : PipeState) (rec : PostRecord) :
    List Event × PipeState × Option PipeError :=
  match rec.discord_thread_id with
  | some tid =>
    let (ev, ctr', res) := call_get_channel env st.ctr tid
    ([ev], { st with ctr := ctr' },
     match res with
     | .ok _ => none
     | .error e => some e)
  | none => ([], st, none)

/-- Thread-reply branch of post_channel (lib.rs lines 362-392): resolve
the parent row by (channel id, thread_ts); a missing row is an
OrphanReply, a row without a destination thread id is a MissingThread;
otherwise post into the parent's thread and insert a ledger row whose
own thread id is empty. -/
def post_reply (env : Env) (sid did key content : Str)
    (files : List (Str × FilePost)) (st : PipeState) (tts : TimeStamp) :
    List Event × PipeState × Option PipeError :=
  match ledger_lookup st.db.posts sid (encodeTs tts) with
  | none => ([], st, some .OrphanReply)
  | some thread =>
    match thread.discord_thread_id with
    | none => ([], st, some .MissingThread)
    | some dtid =>
      let (pev, ctr', pres) := call_post_message env st.ctr dtid content files
      match pres with
      | .error e => ([pev], { st with ctr := ctr' }, some e)
      | .ok msg =>
        let rec0 : PostRecord := ⟨msg.id, sid, did, key, none⟩
        ([pev, .ledgerInsert rec0, .sleepMs 1000],
         { db := { st.db with posts := st.db.posts ++ [rec0] }, ctr := ctr' },
         none)

/-- Thread-root and ordinary branch of post_channel (lib.rs lines
393-424): post to the destination channel; when reply_count is present
and positive, immediately open a thread on the new message and keep its
id; insert a ledger row carrying that thread id (or none). -/
def post_root (env : Env) (sid did key content : Str)
    (files : List (Str × FilePost)) (st : PipeState) (reply_count : Option Nat) :
    List Event × PipeState × Option PipeError :=
  let (pev, ctr', pres) := call_post_message env st.ctr did content files
  match pres with
  | .error e => ([pev], { st with ctr := ctr' }, some e)
  | .ok msg =>
    match reply_count with
    | some count =>
      if count > 0 then
        let (tev, ctr'', tres) :=
          call_start_thread env ctr' did msg.id "slack thread".toList
        match tres with
        | .error e => ([pev, tev], { st with ctr := ctr'' }, some e)
        | .ok thread =>
          let rec0 : PostRecord := ⟨msg.id, sid, did, key, some thread.id⟩
          ([pev, tev, .ledgerInsert rec0, .sleepMs 1000],
           { db := { st.db with posts := st.db.posts ++ [rec0] }, ctr := ctr'' },
           none)
      else
        let rec0 : PostRecord := ⟨msg.id, sid, did, key, none⟩
        ([pev, .ledgerInsert rec0, .sleepMs 1000],
         { db := { st.db with posts := st.db.posts ++ [rec0] }, ctr := ctr' },
         none)
    | none =>
      let rec0 : PostRecord := ⟨msg.id, sid, did, key, none⟩
      ([pev, .ledgerInsert rec0, .sleepMs 1000],
       { db := { st.db with posts := st.db.posts ++ [rec0] }, ctr := ctr' },
       none)

/-- Processing of one message inside post_channel: dedup lookup, then
either the skip branch, or render, resolve attachments, classify the
message (reply when thread_ts is set and reply_count absent, root or
ordinary otherwise) and post.  Returns the events of this message, the
state after it, and its error if it failed. -/
def process_message (env : Env) (dict : List (Str × Str)) (sid did : Str)
    (st : PipeState) (m : Message) : List Event × PipeState × Option PipeError :=
  let key := encodeTs m.ts
  match ledger_lookup st.db.posts sid key with
  | some rec0 => skip_message env st rec0
  | none =>
    let content := replace_slack_id_to_real_name dict (render_text env m)
    let (fev, db', fres) := resolve_files env.fileNet st.db (m.files.getD [])
    match collectResults fres with
    | .error e => (fev, { db := db', ctr := st.ctr }, some (.FetchFile e))
    | .ok files =>
      match m.thread_ts, m.reply_count with
      | some tts, none =>
        let (ev, st', err) :=
          post_reply env sid did key content files { db := db', ctr := st.ctr } tts
        (fev ++ ev, st', err)
      | some _, some rc =>
        let (ev, st', err) :=
          post_root env sid did key content files { db := db', ctr := st.ctr } (some rc)
        (fev ++ ev, st', err)
      | none, rc =>
        let (ev, st', err) :=
          post_root env sid did key content files { db := db', ctr := st.ctr } rc
        (fev ++ ev, st', err)

/-- The message loop of post_channel: process messages in order, and
abort the rest of the channel on the first failure.  Returns the final
state, the per-message event segments of the attempted messages, and
the error that stopped the run, if any. -/
def post_channel_go (env : Env) (dict : List (Str × Str)) (sid did : Str) :
    PipeState → List Message → PipeState × List (List Event) × Option PipeError
  | st, [] => (st, [], none)
  | st, m :: rest =>
    let (ev, st', err) := process_message env dict sid did st m
    match err with
    | some e => (st', [ev], some e)
    | none =>
      let (st'', segs, err') := post_channel_go env dict sid did st' rest
      (st'', ev :: segs, err')

/-- lib.rs post_channel: resolve the destination channel by name, build
the author dictionary from the users map, then run the message loop. -/
def post_channel (env : Env) (discord_channels : List (Str × ChannelGet))
    (channel : SlackChannel) (users : List User) (st : PipeState) :
    PipeState × List (List Event) × Option PipeError :=
  match discord_channels.find? (fun p => decide (p.1 = channel.name)) with
  | none => (st, [], some .ChannelNotFound)
  | some (_, dch) =>
    let dict := users.map (fun u => (u.id, u.readable_name))
    post_channel_go env dict channel.id dch.id st channel.messages

/-- Iterated reruns of post_channel over the same channel, as the
operator re-invoking the tool: each run starts from the state the
previous one left. -/
def iter_runs (env : Env) (discord_channels : List (Str × ChannelGet))
    (channel : SlackChannel) (users : List User) :
    Nat → PipeState → PipeState × List (List (List Event))
  | 0, st => (st, [])
  | n + 1, st =>
    let (st', segs, _) := post_channel env discord_channels channel users st
    let (st'', rest) := iter_runs env discord_channels channel users n st'
    (st'', segs :: rest)

/-- The sort key order of get_channels_stream: chronological order of
the message timestamps. -/
def msgLe (a b : Message) : Prop := a.ts.tle b.ts

instance : DecidableRel msgLe := fun a b => by
  unfold msgLe TimeStamp.tle; infer_instance

instance : IsTotal Message msgLe :=
  ⟨by intro a b; unfold msgLe TimeStamp.tle; omega⟩

instance : IsTrans Message msgLe :=
  ⟨by intro a b c; unfold msgLe TimeStamp.tle; omega⟩

/-- Sorting stage of get_channels_stream (lib.rs lines 267-277): each
channel's messages are sorted ascending by timestamp (sort_by_key with
the derived chronological order; insertion sort is a stable sort, as
Rust's).  Reading the zip container and parsing json, which fill the
message lists, are I/O external to this model. -/
def get_channels_stream (channels : List SlackChannel) : List SlackChannel :=
  channels.map (fun ch =>
    { ch with messages := ch.messages.insertionSort msgLe })

/-! ### Content cache claims -/

theorem find?_append_of_none {α : Type} {p : α → Bool} {l₁ l₂ : List α}
    (h : l₁.find? p = none) : (l₁ ++ l₂).find? p = l₂.find? p := by
  induction l₁ with
  | nil => simp
  | cons a l ih =>
    by_cases hp : p a = true
    · simp [List.find?, hp] at h
    · rw [Bool.not_eq_true] at hp
      simp only [List.find?, hp] at h
      rw [List.cons_append]
      simp only [List.find?, hp]
      exact ih h

/-- C7: a url that already has a cached row is returned from the table
with no network call and no write; consequently a second fetch of any
successfully fetched url performs zero network calls, returns the
byte-identical row, and leaves the store unchanged. -/
theorem C7_cache_hit_idempotent :
    (∀ (net : FileNet) (db : DbState) (url : Str) (row : FileRow),
        db.files.find? (fun r => decide (r.url = url)) = some row →
        fetch_file net db url = ([], db, .ok row)) ∧
    (∀ (net : FileNet) (db db' : DbState) (url : Str) (ev : List Event) (row : FileRow),
        fetch_file net db url = (ev, db', .ok row) →
        fetch_file net db' url = ([], db', .ok row)) := by
  constructor
  · intro net db url row h
    unfold fetch_file
    rw [h]
  · intro net db db' url ev row h
    rcases hf : db.files.find? (fun r => decide (r.url = url)) with _ | row0
    · unfold fetch_file at h
      simp only [hf] at h
      rcases hn : net url with _ | resp
      · simp only [hn] at h; simp at h
      · simp only [hn] at h
        rcases hct : resp.content_type with _ | hdr
        · simp only [hct] at h; simp at h
        · simp only [hct] at h
          rcases hh : headerToStr hdr with _ | mime
          · simp only [hh] at h; simp at h
          · simp only [hh] at h
            rcases hb : resp.body with _ | bytes
            · simp only [hb] at h; simp at h
            · simp only [hb, Prod.mk.injEq, Except.ok.injEq] at h
              obtain ⟨hev, hdb, hrow⟩ := h
              unfold fetch_file
              have hfind : db'.files.find? (fun r => decide (r.url = url)) = some row := by
                rw [← hdb]
                simp only
                rw [find?_append_of_none hf]
                simp [List.find?, ← hrow]
              simp only [hfind]
    · unfold fetch_file at h
      simp only [hf, Prod.mk.injEq, Except.ok.injEq] at h
      obtain ⟨hev, hdb, hrow⟩ := h
      unfold fetch_file
      rw [← hdb]
      simp only [hf]
      rw [hrow]

/-- Witness for C7 at a concrete cached url. -/
theorem C7_cache_hit_idempotent_witness :
    fetch_file (fun _ => none) ⟨[], [⟨['u'], [1, 2], ['m']⟩]⟩ ['u'] =
      ([], ⟨[], [⟨['u'], [1, 2], ['m']⟩]⟩, .ok ⟨['u'], [1, 2], ['m']⟩) :=
  C7_cache_hit_idempotent.1 (fun _ => none) ⟨[], [⟨['u'], [1, 2], ['m']⟩]⟩ ['u']
    ⟨['u'], [1, 2], ['m']⟩ (by decide)

/-- C8: for a url not in the cache, fetch_file fails with FetchFromUrl
exactly when the GET fails or, the headers being acceptable, the body
read fails; with NoCntentType exactly when the response has no
content-type header; with InvalidContentType exactly when that header is
not representable as text; and every failure leaves the store unchanged,
so a later retry can succeed. -/
theorem C8_fetch_error_taxonomy (net : FileNet) (db : DbState) (url : Str)
    (hmiss : db.files.find? (fun r => decide (r.url = url)) = none) :
    ((fetch_file net db url).2.2 = .error .FetchFromUrl ↔
      net url = none ∨
      (∃ resp hdr mime, net url = some resp ∧ resp.content_type = some hdr ∧
        headerToStr hdr = some mime ∧ resp.body = none)) ∧
    ((fetch_file net db url).2.2 = .error .NoCntentType ↔
      (∃ resp, net url = some resp ∧ resp.content_type = none)) ∧
    ((fetch_file net db url).2.2 = .error .InvalidContentType ↔
      (∃ resp hdr, net url = some resp ∧ resp.content_type = some hdr ∧
        headerToStr hdr = none)) ∧
    (∀ e, (fetch_file net db url).2.2 = .error e → (fetch_file net db url).2.1 = db) := by
  unfold fetch_file
  simp only [hmiss]
  rcases hn : net url with _ | resp
  · simp
  · rcases hct : resp.content_type with _ | hdr
    · simp [hct]
    · rcases hh : headerToStr hdr with _ | mime
      · simp [hct, hh]
      · rcases hb : resp.body with _ | bytes
        · simp [hct, hh, hb]
        · simp [hct, hh, hb]

/-- Witness for C8 at a concrete url whose GET fails. -/
theorem C8_fetch_error_taxonomy_witness :
    (fetch_file (fun _ => none) ⟨[], []⟩ ['u']).2.2 = .error .FetchFromUrl :=
  ((C8_fetch_error_taxonomy (fun _ => none) ⟨[], []⟩ ['u'] (by decide)).1).mpr
    (Or.inl rfl)

/-! ### Event accounting helpers -/

/-- Is this event a destination post? -/
def isPostE : Event → Bool
  | .postMessage _ _ _ => true
  | _ => false

/-- Is this event a rate-limit pause? -/
def isSleepE : Event → Bool
  | .sleepMs _ => true
  | _ => false

/-- The ledger row inserted by this event, if it is an insert. -/
def insertRecE : Event → Option PostRecord
  | .ledgerInsert r => some r
  | _ => none

/-- Number of destination posts in a trace. -/
def countPosts (ev : List Event) : Nat := ev.countP isPostE

/-- Number of pauses in a trace. -/
def countSleeps (ev : List Event) : Nat := ev.countP isSleepE

/-- The ledger rows inserted along a trace, in order. -/
def insertedRecs (ev : List Event) : List PostRecord := ev.filterMap insertRecE

theorem fetch_file_spec (net : FileNet) (db : DbState) (url : Str) :
    (fetch_file net db url).2.1.posts = db.posts ∧
    (∀ e ∈ (fetch_file net db url).1, ∃ u, e = .netGetFile u) := by
  unfold fetch_file
  rcases hfind : db.files.find? (fun r => decide (r.url = url)) with _ | row
  · rcases hn : net url with _ | resp
    · simp [hfind, hn]
    · rcases hct : resp.content_type with _ | hdr
      · simp [hfind, hn, hct]
      · rcases hh : headerToStr hdr with _ | mime
        · simp [hfind, hn, hct, hh]
        · rcases hb : resp.body with _ | bytes
          · simp [hfind, hn, hct, hh, hb]
          · simp [hfind, hn, hct, hh, hb]
  · simp [hfind]

theorem resolve_files_spec (net : FileNet) (db : DbState) (fs : List SlackFile) :
    (resolve_files net db fs).2.1.posts = db.posts ∧
    (∀ e ∈ (resolve_files net db fs).1, ∃ url, e = .netGetFile url) := by
  induction fs generalizing db with
  | nil => exact ⟨rfl, by simp [resolve_files]⟩
  | cons f rest ih =>
    cases f with
    | Hosted name title url =>
      have hfs := fetch_file_spec net db url
      rcases hf : fetch_file net db url with ⟨ev, db2, res⟩
      rw [hf] at hfs
      have ihd := ih db2
      constructor
      · show (resolve_files net db (SlackFile.Hosted name title url :: rest)).2.1.posts = db.posts
        unfold resolve_files
        rw [hf]
        simp only
        rw [ihd.1, hfs.1]
      · show ∀ e ∈ (resolve_files net db (SlackFile.Hosted name title url :: rest)).1, _
        unfold resolve_files
        rw [hf]
        simp only [List.mem_append]
        intro e he
        rcases he with he | he
        · exact hfs.2 e he
        · exact ihd.2 e he
    | Tombstone => exact ih db
    | External name title => exact ih db
    | Snippet => exact ih db

theorem skip_message_spec (env : Env) (st : PipeState) (rec0 : PostRecord)
    (ev : List Event) (st' : PipeState) (err : Option PipeError)
    (h : skip_message env st rec0 = (ev, st', err)) :
    st'.db = st.db ∧ countPosts ev = 0 ∧ insertedRecs ev = [] ∧
    countSleeps ev = 0 := by
  unfold skip_message at h
  rcases ht : rec0.discord_thread_id with _ | tid
  · simp only [ht, Prod.mk.injEq] at h
    obtain ⟨hev, hst, herr⟩ := h
    subst hev; subst hst
    exact ⟨rfl, rfl, rfl, rfl⟩
  · simp only [ht, call_get_channel, Prod.mk.injEq] at h
    obtain ⟨hev, hst, herr⟩ := h
    subst hev; subst hst
    refine ⟨rfl, ?_, ?_, ?_⟩ <;>
      simp [countPosts, countSleeps, insertedRecs, isPostE, isSleepE, insertRecE]

theorem post_reply_spec (env : Env) (sid did key content : Str)
    (files : List (Str × FilePost)) (st : PipeState) (tts : TimeStamp)
    (ev : List Event) (st' : PipeState) (err : Option PipeError)
    (h : post_reply env sid did key content files st tts = (ev, st', err)) :
    st'.db.posts = st.db.posts ++ insertedRecs ev ∧
    st'.db.files = st.db.files ∧
    (∀ r ∈ insertedRecs ev, r.slack_ts = key ∧ r.slack_channel_id = sid ∧
      r.discord_thread_id = none) ∧
    (err = none → ∃ thread dtid mg,
        ledger_lookup st.db.posts sid (encodeTs tts) = some thread ∧
        thread.discord_thread_id = some dtid ∧ env.net st.ctr = .msg mg ∧
        ev = [.postMessage dtid content files,
              .ledgerInsert ⟨mg.id, sid, did, key, none⟩, .sleepMs 1000]) ∧
    (err ≠ none → insertedRecs ev = [] ∧ countSleeps ev = 0 ∧ st'.db = st.db) ∧
    countPosts ev ≤ 1 ∧
    (err = none → countPosts ev = 1 ∧ countSleeps ev = 1 ∧
      ev.getLast? = some (.sleepMs 1000)) ∧
    (ledger_lookup st.db.posts sid (encodeTs tts) = none →
      err = some .OrphanReply ∧ ev = []) ∧
    (∀ thread, ledger_lookup st.db.posts sid (encodeTs tts) = some thread →
      thread.discord_thread_id = none → err = some .MissingThread ∧ ev = []) := by
  unfold post_reply at h
  rcases hl : ledger_lookup st.db.posts sid (encodeTs tts) with _ | thread
  · simp only [hl, Prod.mk.injEq] at h
    obtain ⟨hev, hst, herr⟩ := h
    subst hev; subst hst; subst herr
    refine ⟨by simp [insertedRecs], rfl, by simp [insertedRecs], ?_, ?_, ?_, ?_, ?_, ?_⟩ <;>
      simp [insertedRecs, countPosts, countSleeps]
  · simp only [hl] at h
    rcases ht : thread.discord_thread_id with _ | dtid
    · simp only [ht, Prod.mk.injEq] at h
      obtain ⟨hev, hst, herr⟩ := h
      subst hev; subst hst; subst herr
      refine ⟨by simp [insertedRecs], rfl, by simp [insertedRecs], ?_, ?_, ?_, ?_, ?_, ?_⟩ <;>
        simp [insertedRecs, countPosts, countSleeps, hl, ht]
    · simp only [ht, call_post_message] at h
      rcases hn : env.net st.ctr with mg | cg | _
      · simp only [hn, Prod.mk.injEq] at h
        obtain ⟨hev, hst, herr⟩ := h
        subst hev; subst hst; subst herr
        refine ⟨?_, rfl, ?_, ?_, ?_, ?_, ?_, ?_, ?_⟩ <;>
          simp [insertedRecs, countPosts, countSleeps, insertRecE, isPostE, isSleepE,
            hl, ht, hn]
      · simp only [hn, Prod.mk.injEq] at h
        obtain ⟨hev, hst, herr⟩ := h
        subst hev; subst hst; subst herr
        refine ⟨?_, rfl, ?_, ?_, ?_, ?_, ?_, ?_, ?_⟩ <;>
          simp [insertedRecs, countPosts, countSleeps, insertRecE, isPostE, isSleepE,
            hl, ht, hn]
      · simp only [hn, Prod.mk.injEq] at h
        obtain ⟨hev, hst, herr⟩ := h
        subst hev; subst hst; subst herr
        refine ⟨?_, rfl, ?_, ?_, ?_, ?_, ?_, ?_, ?_⟩ <;>
          simp [insertedRecs, countPosts, countSleeps, insertRecE, isPostE, isSleepE,
            hl, ht, hn]

theorem post_root_spec (env : Env) (sid did key content : Str)
    (files : List (Str × FilePost)) (st : PipeState) (rc : Option Nat)
    (ev : List Event) (st' : PipeState) (err : Option PipeError)
    (h : post_root env sid did key content files st rc = (ev, st', err)) :
    st'.db.posts = st.db.posts ++ insertedRecs ev ∧
    st'.db.files = st.db.files ∧
    (∀ r ∈ insertedRecs ev, r.slack_ts = key ∧ r.slack_channel_id = sid) ∧
    (err ≠ none → insertedRecs ev = [] ∧ countSleeps ev = 0 ∧ st'.db = st.db) ∧
    countPosts ev ≤ 1 ∧
    (err = none → countPosts ev = 1 ∧ countSleeps ev = 1 ∧
      ev.getLast? = some (.sleepMs 1000)) ∧
    (∀ count, rc = some count → count > 0 → err = none →
      ∃ mg cg, env.net st.ctr = .msg mg ∧ env.net (st.ctr + 1) = .chan cg ∧
        ev = [.postMessage did content files,
              .startThread did mg.id "slack thread".toList,
              .ledgerInsert ⟨mg.id, sid, did, key, some cg.id⟩, .sleepMs 1000] ∧
        insertedRecs ev = [⟨mg.id, sid, did, key, some cg.id⟩]) ∧
    (∀ count, rc = some count → count = 0 → err = none →
      ∃ mg, env.net st.ctr = .msg mg ∧
        ev = [.postMessage did content files,
              .ledgerInsert ⟨mg.id, sid, did, key, none⟩, .sleepMs 1000] ∧
        insertedRecs ev = [⟨mg.id, sid, did, key, none⟩]) ∧
    (rc = none → err = none →
      ∃ mg, env.net st.ctr = .msg mg ∧
        ev = [.postMessage did content files,
              .ledgerInsert ⟨mg.id, sid, did, key, none⟩, .sleepMs 1000]) := by
  unfold post_root call_post_message call_start_thread at h
  rcases hn : env.net st.ctr with mg | cg0 | _
  · simp only [hn] at h
    rcases rc with _ | count
    · simp only [Prod.mk.injEq] at h
      obtain ⟨hev, hst, herr⟩ := h
      subst hev; subst hst; subst herr
      refine ⟨?_, rfl, ?_, ?_, ?_, ?_, ?_, ?_, ?_⟩ <;>
        simp [insertedRecs, countPosts, countSleeps, insertRecE, isPostE, isSleepE, hn]
    · by_cases hc : count > 0
      · simp only [hc, if_pos] at h
        rcases hn2 : env.net (st.ctr + 1) with mg2 | cg | _
        · simp only [hn2, Prod.mk.injEq] at h
          obtain ⟨hev, hst, herr⟩ := h
          subst hev; subst hst; subst herr
          refine ⟨?_, rfl, ?_, ?_, ?_, ?_, ?_, ?_, ?_⟩ <;>
            (try simp [insertedRecs, countPosts, countSleeps, insertRecE, isPostE, isSleepE,
              hn, hn2]) <;> try omega
        · simp only [hn2, Prod.mk.injEq] at h
          obtain ⟨hev, hst, herr⟩ := h
          subst hev; subst hst; subst herr
          refine ⟨?_, rfl, ?_, ?_, ?_, ?_, ?_, ?_, ?_⟩ <;>
            (try simp [insertedRecs, countPosts, countSleeps, insertRecE, isPostE, isSleepE,
              hn, hn2]) <;> try omega
        · simp only [hn2, Prod.mk.injEq] at h
          obtain ⟨hev, hst, herr⟩ := h
          subst hev; subst hst; subst herr
          refine ⟨?_, rfl, ?_, ?_, ?_, ?_, ?_, ?_, ?_⟩ <;>
            (try simp [insertedRecs, countPosts, countSleeps, insertRecE, isPostE, isSleepE,
              hn, hn2]) <;> try omega
      · simp only [if_neg hc, Prod.mk.injEq] at h
        obtain ⟨hev, hst, herr⟩ := h
        subst hev; subst hst; subst herr
        have hc0 : count = 0 := by omega
        subst hc0
        refine ⟨?_, rfl, ?_, ?_, ?_, ?_, ?_, ?_, ?_⟩ <;>
          simp [insertedRecs, countPosts, countSleeps, insertRecE, isPostE, isSleepE, hn]
  · simp only [hn, Prod.mk.injEq] at h
    obtain ⟨hev, hst, herr⟩ := h
    subst hev; subst hst; subst herr
    refine ⟨?_, rfl, ?_, ?_, ?_, ?_, ?_, ?_, ?_⟩ <;>
      simp [insertedRecs, countPosts, countSleeps, insertRecE, isPostE, isSleepE, hn]
  · simp only [hn, Prod.mk.injEq] at h
    obtain ⟨hev, hst, herr⟩ := h
    subst hev; subst hst; subst herr
    refine ⟨?_, rfl, ?_, ?_, ?_, ?_, ?_, ?_, ?_⟩ <;>
      simp [insertedRecs, countPosts, countSleeps, insertRecE, isPostE, isSleepE, hn]

theorem netOnly_counts (ev : List Event)
    (h : ∀ e ∈ ev, ∃ u, e = .netGetFile u) :
    insertedRecs ev = [] ∧ countPosts ev = 0 ∧ countSleeps ev = 0 := by
  induction ev with
  | nil => exact ⟨rfl, rfl, rfl⟩
  | cons e rest ih =>
    obtain ⟨u, hu⟩ := h e (List.mem_cons_self e rest)
    subst hu
    exact ih (fun x hx => h x (List.mem_cons_of_mem _ hx))

theorem getLast?_append_of_last {l₁ l₂ : List Event} {e : Event}
    (h : l₂.getLast? = some e) : (l₁ ++ l₂).getLast? = some e := by
  have hne : l₂ ≠ [] := by
    intro hnil
    rw [hnil] at h
    exact absurd h (by simp)
  rw [List.getLast?_append_of_ne_nil _ hne]
  exact h

theorem insertedRecs_append (a b : List Event) :
    insertedRecs (a ++ b) = insertedRecs a ++ insertedRecs b :=
  List.filterMap_append a b insertRecE

theorem countPosts_append (a b : List Event) :
    countPosts (a ++ b) = countPosts a + countPosts b :=
  List.countP_append isPostE a b

theorem countSleeps_append (a b : List Event) :
    countSleeps (a ++ b) = countSleeps a + countSleeps b :=
  List.countP_append isSleepE a b

theorem process_message_spec (env : Env) (dict : List (Str × Str)) (sid did : Str)
    (st : PipeState) (m : Message) (ev : List Event) (st' : PipeState)
    (err : Option PipeError)
    (h : process_message env dict sid did st m = (ev, st', err)) :
    st'.db.posts = st.db.posts ++ insertedRecs ev ∧
    (∀ r ∈ insertedRecs ev, r.slack_ts = encodeTs m.ts ∧ r.slack_channel_id = sid) ∧
    (∀ rec0, ledger_lookup st.db.posts sid (encodeTs m.ts) = some rec0 →
      countPosts ev = 0 ∧ insertedRecs ev = [] ∧ countSleeps ev = 0) ∧
    (ledger_lookup st.db.posts sid (encodeTs m.ts) = none → err = none →
      countPosts ev = 1 ∧ (∃ r, insertedRecs ev = [r]) ∧
      countSleeps ev = 1 ∧ ev.getLast? = some (.sleepMs 1000)) ∧
    (err ≠ none → insertedRecs ev = [] ∧ countSleeps ev = 0) ∧
    countPosts ev ≤ 1 := by
  unfold process_message at h
  rcases hl : ledger_lookup st.db.posts sid (encodeTs m.ts) with _ | rec0
  · simp only [hl] at h
    have hfr := resolve_files_spec env.fileNet st.db (m.files.getD [])
    rcases hres : resolve_files env.fileNet st.db (m.files.getD []) with ⟨fev, db2, fres⟩
    rw [hres] at hfr h
    have hposts2 : db2.posts = st.db.posts := hfr.1
    have hnet : ∀ e ∈ fev, ∃ url, e = Event.netGetFile url := hfr.2
    have hfev := netOnly_counts fev hnet
    rcases hcr : collectResults fres with e | files2
    · simp only [hcr, Prod.mk.injEq] at h
      obtain ⟨hev, hst, herr⟩ := h
      subst hev; subst hst; subst herr
      refine ⟨?_, ?_, ?_, ?_, ?_, ?_⟩
      · show db2.posts = st.db.posts ++ insertedRecs fev
        rw [hfev.1, List.append_nil, hposts2]
      · intro r hr
        rw [hfev.1] at hr
        exact absurd hr (by simp)
      · intro rec0 hrec
        exact absurd hrec (by simp)
      · intro _ hnone
        exact absurd hnone (by simp)
      · intro _
        exact ⟨hfev.1, hfev.2.2⟩
      · rw [hfev.2.1]
        omega
    · simp only [hcr] at h
      rcases htt : m.thread_ts with _ | tts <;> rcases hrc : m.reply_count with _ | rc
      all_goals simp only [htt, hrc] at h
      -- none, none: ordinary message through post_root
      · rcases hpr : post_root env sid did (encodeTs m.ts)
            (replace_slack_id_to_real_name dict (render_text env m)) files2
            ⟨db2, st.ctr⟩ none with ⟨ev2, st2, err2⟩
        rw [hpr] at h
        simp only [Prod.mk.injEq] at h
        obtain ⟨hev, hst, herr⟩ := h
        subst hev; subst hst; subst herr
        have hs := post_root_spec _ _ _ _ _ _ _ _ _ _ _ hpr
        have hs1 : st2.db.posts = db2.posts ++ insertedRecs ev2 := hs.1
        refine ⟨?_, ?_, ?_, ?_, ?_, ?_⟩
        · rw [insertedRecs_append, hfev.1, List.nil_append, hs1, hposts2]
        · intro r hr
          rw [insertedRecs_append, hfev.1, List.nil_append] at hr
          exact hs.2.2.1 r hr
        · intro rec0 hrec
          exact absurd hrec (by simp)
        · intro _ hnone
          have h6 := hs.2.2.2.2.2.1 hnone
          obtain ⟨mg, hmg, hev2, hins⟩ : ∃ mg, env.net st.ctr = .msg mg ∧
              ev2 = [.postMessage did
                       (replace_slack_id_to_real_name dict (render_text env m)) files2,
                     .ledgerInsert ⟨mg.id, sid, did, encodeTs m.ts, none⟩,
                     .sleepMs 1000] ∧
              insertedRecs ev2 = [⟨mg.id, sid, did, encodeTs m.ts, none⟩] := by
            obtain ⟨mg, hmg, hev2⟩ := hs.2.2.2.2.2.2.2.2 rfl hnone
            exact ⟨mg, hmg, hev2, by rw [hev2]; rfl⟩
          refine ⟨?_, ?_, ?_, ?_⟩
          · rw [countPosts_append, hfev.2.1, h6.1]
          · rw [insertedRecs_append, hfev.1, List.nil_append, hins]
            exact ⟨_, rfl⟩
          · rw [countSleeps_append, hfev.2.2, h6.2.1]
          · exact getLast?_append_of_last h6.2.2
        · intro hne
          have hf := hs.2.2.2.1 hne
          constructor
          · rw [insertedRecs_append, hfev.1, List.nil_append]
            exact hf.1
          · rw [countSleeps_append, hfev.2.2, hf.2.1]
        · rw [countPosts_append, hfev.2.1]
          have := hs.2.2.2.2.1
          omega
      -- none thread_ts, some reply_count: thread root through post_root
      · rcases hpr : post_root env sid did (encodeTs m.ts)
            (replace_slack_id_to_real_name dict (render_text env m)) files2
            ⟨db2, st.ctr⟩ (some rc) with ⟨ev2, st2, err2⟩
        rw [hpr] at h
        simp only [Prod.mk.injEq] at h
        obtain ⟨hev, hst, herr⟩ := h
        subst hev; subst hst; subst herr
        have hs := post_root_spec _ _ _ _ _ _ _ _ _ _ _ hpr
        have hs1 : st2.db.posts = db2.posts ++ insertedRecs ev2 := hs.1
        refine ⟨?_, ?_, ?_, ?_, ?_, ?_⟩
        · rw [insertedRecs_append, hfev.1, List.nil_append, hs1, hposts2]
        · intro r hr
          rw [insertedRecs_append, hfev.1, List.nil_append] at hr
          exact hs.2.2.1 r hr
        · intro rec0 hrec
          exact absurd hrec (by simp)
        · intro _ hnone
          have h6 := hs.2.2.2.2.2.1 hnone
          refine ⟨?_, ?_, ?_, ?_⟩
          · rw [countPosts_append, hfev.2.1, h6.1]
          · rw [insertedRecs_append, hfev.1, List.nil_append]
            by_cases hrc0 : rc > 0
            · obtain ⟨mg, cg, hmg, hcg, hev2, hins⟩ :=
                hs.2.2.2.2.2.2.1 rc rfl hrc0 hnone
              exact ⟨_, hins⟩
            · have hrc0' : rc = 0 := by omega
              obtain ⟨mg, hmg, hev2, hins⟩ :=
                hs.2.2.2.2.2.2.2.1 rc rfl hrc0' hnone
              exact ⟨_, hins⟩
          · rw [countSleeps_append, hfev.2.2, h6.2.1]
          · exact getLast?_append_of_last h6.2.2
        · intro hne
          have hf := hs.2.2.2.1 hne
          constructor
          · rw [insertedRecs_append, hfev.1, List.nil_append]
            exact hf.1
          · rw [countSleeps_append, hfev.2.2, hf.2.1]
        · rw [countPosts_append, hfev.2.1]
          have := hs.2.2.2.2.1
          omega
      -- some thread_ts, none reply_count: reply through post_reply
      · rcases hpr : post_reply env sid did (encodeTs m.ts)
            (replace_slack_id_to_real_name dict (render_text env m)) files2
            ⟨db2, st.ctr⟩ tts with ⟨ev2, st2, err2⟩
        rw [hpr] at h
        simp only [Prod.mk.injEq] at h
        obtain ⟨hev, hst, herr⟩ := h
        subst hev; subst hst; subst herr
        have hs := post_reply_spec _ _ _ _ _ _ _ _ _ _ _ hpr
        have hs1 : st2.db.posts = db2.posts ++ insertedRecs ev2 := hs.1
        refine ⟨?_, ?_, ?_, ?_, ?_, ?_⟩
        · rw [insertedRecs_append, hfev.1, List.nil_append, hs1, hposts2]
        · intro r hr
          rw [insertedRecs_append, hfev.1, List.nil_append] at hr
          exact ⟨(hs.2.2.1 r hr).1, (hs.2.2.1 r hr).2.1⟩
        · intro rec0 hrec
          exact absurd hrec (by simp)
        · intro _ hnone
          have h6 := hs.2.2.2.2.2.2.1 hnone
          obtain ⟨thread, dtid, mg, hth, hdt, hmg, hev2⟩ := hs.2.2.2.1 hnone
          refine ⟨?_, ?_, ?_, ?_⟩
          · rw [countPosts_append, hfev.2.1, h6.1]
          · rw [insertedRecs_append, hfev.1, List.nil_append, hev2]
            exact ⟨⟨mg.id, sid, did, encodeTs m.ts, none⟩, rfl⟩
          · rw [countSleeps_append, hfev.2.2, h6.2.1]
          · exact getLast?_append_of_last h6.2.2
        · intro hne
          have hf := hs.2.2.2.2.1 hne
          constructor
          · rw [insertedRecs_append, hfev.1, List.nil_append]
            exact hf.1
          · rw [countSleeps_append, hfev.2.2, hf.2.1]
        · rw [countPosts_append, hfev.2.1]
          have := hs.2.2.2.2.2.1
          omega
      -- some thread_ts, some reply_count: thread root through post_root
      · rcases hpr : post_root env sid did (encodeTs m.ts)
            (replace_slack_id_to_real_name dict (render_text env m)) files2
            ⟨db2, st.ctr⟩ (some rc) with ⟨ev2, st2, err2⟩
        rw [hpr] at h
        simp only [Prod.mk.injEq] at h
        obtain ⟨hev, hst, herr⟩ := h
        subst hev; subst hst; subst herr
        have hs := post_root_spec _ _ _ _ _ _ _ _ _ _ _ hpr
        have hs1 : st2.db.posts = db2.posts ++ insertedRecs ev2 := hs.1
        refine ⟨?_, ?_, ?_, ?_, ?_, ?_⟩
        · rw [insertedRecs_append, hfev.1, List.nil_append, hs1, hposts2]
        · intro r hr
          rw [insertedRecs_append, hfev.1, List.nil_append] at hr
          exact hs.2.2.1 r hr
        · intro rec0 hrec
          exact absurd hrec (by simp)
        · intro _ hnone
          have h6 := hs.2.2.2.2.2.1 hnone
          refine ⟨?_, ?_, ?_, ?_⟩
          · rw [countPosts_append, hfev.2.1, h6.1]
          · rw [insertedRecs_append, hfev.1, List.nil_append]
            by_cases hrc0 : rc > 0
            · obtain ⟨mg, cg, hmg, hcg, hev2, hins⟩ :=
                hs.2.2.2.2.2.2.1 rc rfl hrc0 hnone
              exact ⟨_, hins⟩
            · have hrc0' : rc = 0 := by omega
              obtain ⟨mg, hmg, hev2, hins⟩ :=
                hs.2.2.2.2.2.2.2.1 rc rfl hrc0' hnone
              exact ⟨_, hins⟩
          · rw [countSleeps_append, hfev.2.2, h6.2.1]
          · exact getLast?_append_of_last h6.2.2
        · intro hne
          have hf := hs.2.2.2.1 hne
          constructor
          · rw [insertedRecs_append, hfev.1, List.nil_append]
            exact hf.1
          · rw [countSleeps_append, hfev.2.2, hf.2.1]
        · rw [countPosts_append, hfev.2.1]
          have := hs.2.2.2.2.1
          omega
  · simp only [hl] at h
    have hs := skip_message_spec _ _ _ _ _ _ h
    refine ⟨?_, ?_, ?_, ?_, ?_, ?_⟩
    · rw [hs.2.2.1]
      simp [hs.1]
    · rw [hs.2.2.1]
      simp
    · intro _ _
      exact ⟨hs.2.1, hs.2.2.1, hs.2.2.2⟩
    · intro hnone _
      exact absurd hnone (by simp)
    · intro _
      exact ⟨hs.2.2.1, hs.2.2.2⟩
    · rw [hs.2.1]
      omega

theorem find?_append_some {α : Type} {p : α → Bool} {l₁ l₂ : List α} {r : α}
    (h : l₁.find? p = some r) : (l₁ ++ l₂).find? p = some r := by
  induction l₁ with
  | nil => simp at h
  | cons a l ih =>
    by_cases hp : p a = true
    · rw [List.cons_append]
      simp only [List.find?, hp] at h ⊢
      exact h
    · rw [Bool.not_eq_true] at hp
      rw [List.cons_append]
      simp only [List.find?, hp] at h ⊢
      exact ih h

theorem find?_eq_none_of_all {α : Type} {p : α → Bool} {l : List α}
    (h : ∀ x ∈ l, p x = false) : l.find? p = none := by
  induction l with
  | nil => rfl
  | cons a l ih =>
    simp only [List.find?, h a (List.mem_cons_self a l)]
    exact ih (fun x hx => h x (List.mem_cons_of_mem a hx))

theorem ledger_lookup_append_left {posts ext : List PostRecord} {sid key : Str}
    {r : PostRecord} (h : ledger_lookup posts sid key = some r) :
    ledger_lookup (posts ++ ext) sid key = some r :=
  find?_append_some h

theorem ledger_lookup_append_none {posts ext : List PostRecord} {sid key : Str}
    (h : ledger_lookup posts sid key = none)
    (hext : ∀ r ∈ ext, ¬(r.slack_ts = key ∧ r.slack_channel_id = sid)) :
    ledger_lookup (posts ++ ext) sid key = none := by
  unfold ledger_lookup at *
  rw [find?_append_of_none h]
  exact find?_eq_none_of_all (fun x hx => by simp [hext x hx])

/-- Posts only grow along a run (whatever its outcome). -/
theorem go_posts_prefix (env : Env) (dict : List (Str × Str)) (sid did : Str) :
    ∀ (msgs : List Message) (st st' : PipeState) (segs : List (List Event))
      (err : Option PipeError),
      post_channel_go env dict sid did st msgs = (st', segs, err) →
      ∃ tail, st'.db.posts = st.db.posts ++ tail := by
  intro msgs
  induction msgs with
  | nil =>
    intro st st' segs err h
    unfold post_channel_go at h
    simp only [Prod.mk.injEq] at h
    obtain ⟨h1, _, _⟩ := h
    subst h1
    exact ⟨[], by simp⟩
  | cons m rest ih =>
    intro st st' segs err h
    unfold post_channel_go at h
    rcases hpm : process_message env dict sid did st m with ⟨ev, st1, err1⟩
    rw [hpm] at h
    have hsp := process_message_spec _ _ _ _ _ _ _ _ _ hpm
    rcases err1 with _ | e
    · simp only at h
      rcases hgo : post_channel_go env dict sid did st1 rest with ⟨st2, segs2, err2⟩
      rw [hgo] at h
      simp only [Prod.mk.injEq] at h
      obtain ⟨h1, _, _⟩ := h
      subst h1
      obtain ⟨tail2, htail2⟩ := ih st1 st2 segs2 err2 hgo
      exact ⟨insertedRecs ev ++ tail2, by rw [htail2, hsp.1, List.append_assoc]⟩
    · simp only [Prod.mk.injEq] at h
      obtain ⟨h1, _, _⟩ := h
      subst h1
      exact ⟨insertedRecs ev, hsp.1⟩

/-- First run over a channel whose keys are all absent and pairwise
distinct: when the run succeeds, every message produces exactly one
destination post, and afterwards every message key is ledgered. -/
theorem go_fresh (env : Env) (dict : List (Str × Str)) (sid did : Str) :
    ∀ (msgs : List Message) (st : PipeState) (st' : PipeState)
      (segs : List (List Event)),
      (∀ m ∈ msgs, ledger_lookup st.db.posts sid (encodeTs m.ts) = none) →
      List.Pairwise (fun x y => encodeTs x.ts ≠ encodeTs y.ts) msgs →
      post_channel_go env dict sid did st msgs = (st', segs, none) →
      segs.length = msgs.length ∧
      (∀ k, k < segs.length → countPosts (segs.getD k []) = 1) ∧
      (∀ m ∈ msgs, ∃ r, ledger_lookup st'.db.posts sid (encodeTs m.ts) = some r) := by
  intro msgs
  induction msgs with
  | nil =>
    intro st st' segs habs hdist h
    unfold post_channel_go at h
    simp only [Prod.mk.injEq] at h
    obtain ⟨h1, h2, _⟩ := h
    subst h1; subst h2
    exact ⟨rfl, by intro k hk; simp at hk, by intro m hm; simp at hm⟩
  | cons m rest ih =>
    intro st st' segs habs hdist h
    unfold post_channel_go at h
    rcases hpm : process_message env dict sid did st m with ⟨ev, st1, err⟩
    rw [hpm] at h
    rcases err with _ | e
    · simp only at h
      rcases hgo : post_channel_go env dict sid did st1 rest with ⟨st2, segs2, err2⟩
      rw [hgo] at h
      simp only [Prod.mk.injEq] at h
      obtain ⟨h1, h2, h3⟩ := h
      subst h1; subst h2
      rcases err2 with _ | e2
      · have hsp := process_message_spec _ _ _ _ _ _ _ _ _ hpm
        have hm0 := habs m (List.mem_cons_self m rest)
        have hfresh := hsp.2.2.2.1 hm0 rfl
        obtain ⟨r0, hr0⟩ := hfresh.2.1
        have hkey := hsp.2.1 r0 (by rw [hr0]; exact List.mem_singleton.mpr rfl)
        have hposts1 : st1.db.posts = st.db.posts ++ [r0] := by
          rw [hsp.1, hr0]
        have habs' : ∀ x ∈ rest, ledger_lookup st1.db.posts sid (encodeTs x.ts) = none := by
          intro x hx
          rw [hposts1]
          refine ledger_lookup_append_none (habs x (List.mem_cons_of_mem m hx)) ?_
          intro r hr
          simp only [List.mem_singleton] at hr
          subst hr
          intro hcontra
          have hne := (List.pairwise_cons.mp hdist).1 x hx
          rw [hkey.1] at hcontra
          exact hne hcontra.1
        have ihr := ih st1 st2 segs2 habs' (List.pairwise_cons.mp hdist).2 hgo
        refine ⟨?_, ?_, ?_⟩
        · simp [ihr.1]
        · intro k hk
          cases k with
          | zero =>
            simpa using hfresh.1
          | succ k' =>
            simp only [List.length_cons] at hk
            have := ihr.2.1 k' (by simpa using hk)
            simpa using this
        · intro x hx
          rcases List.mem_cons.mp hx with hx | hx
          · subst hx
            have hin1 : ledger_lookup st1.db.posts sid (encodeTs x.ts) = some r0 := by
              rw [hposts1]
              have hnone : ledger_lookup st.db.posts sid (encodeTs x.ts) = none :=
                habs x (List.mem_cons_self x rest)
              unfold ledger_lookup at hnone ⊢
              rw [find?_append_of_none hnone]
              simp [List.find?, hkey.1, hkey.2]
            obtain ⟨tail, htail⟩ :=
              go_posts_prefix env dict sid did rest st1 st2 segs2 none hgo
            rw [htail]
            exact ⟨r0, ledger_lookup_append_left hin1⟩
          · exact ihr.2.2 x hx
      · exact absurd h3 (by simp)
    · simp at h

/-- Replay over a channel whose keys are all already ledgered: every
attempted message is skipped, no destination post and no ledger write
happens, and the posts table is untouched (whatever the run outcome). -/
theorem go_replay (env : Env) (dict : List (Str × Str)) (sid did : Str) :
    ∀ (msgs : List Message) (st st' : PipeState) (segs : List (List Event))
      (err : Option PipeError),
      (∀ m ∈ msgs, ∃ r, ledger_lookup st.db.posts sid (encodeTs m.ts) = some r) →
      post_channel_go env dict sid did st msgs = (st', segs, err) →
      (∀ seg ∈ segs, countPosts seg = 0 ∧ insertedRecs seg = []) ∧
      st'.db.posts = st.db.posts := by
  intro msgs
  induction msgs with
  | nil =>
    intro st st' segs err hpres h
    unfold post_channel_go at h
    simp only [Prod.mk.injEq] at h
    obtain ⟨h1, h2, _⟩ := h
    subst h1; subst h2
    exact ⟨by intro seg hs; simp at hs, rfl⟩
  | cons m rest ih =>
    intro st st' segs err hpres h
    unfold post_channel_go at h
    rcases hpm : process_message env dict sid did st m with ⟨ev, st1, err1⟩
    rw [hpm] at h
    have hsp := process_message_spec _ _ _ _ _ _ _ _ _ hpm
    obtain ⟨r0, hr0⟩ := hpres m (List.mem_cons_self m rest)
    have hskip := hsp.2.2.1 r0 hr0
    have hposts1 : st1.db.posts = st.db.posts := by
      rw [hsp.1, hskip.2.1, List.append_nil]
    rcases err1 with _ | e
    · simp only at h
      rcases hgo : post_channel_go env dict sid did st1 rest with ⟨st2, segs2, err2⟩
      rw [hgo] at h
      simp only [Prod.mk.injEq] at h
      obtain ⟨h1, h2, _⟩ := h
      subst h1; subst h2
      have hpres' : ∀ x ∈ rest, ∃ r, ledger_lookup st1.db.posts sid (encodeTs x.ts) = some r := by
        intro x hx
        rw [hposts1]
        exact hpres x (List.mem_cons_of_mem m hx)
      have ihr := ih st1 st2 segs2 err2 hpres' hgo
      refine ⟨?_, ?_⟩
      · intro seg hs
        rcases List.mem_cons.mp hs with hs | hs
        · subst hs
          exact ⟨hskip.1, hskip.2.1⟩
        · exact ihr.1 seg hs
      · rw [ihr.2, hposts1]
    · simp only [Prod.mk.injEq] at h
      obtain ⟨h1, h2, _⟩ := h
      subst h1; subst h2
      refine ⟨?_, hposts1⟩
      intro seg hs
      rcases List.mem_cons.mp hs with hs | hs
      · subst hs
        exact ⟨hskip.1, hskip.2.1⟩
      · simp at hs

/-- Destination posts attributable to the message at index k within one
run: the post events of that message's segment. -/
def postsInRunAt (segs : List (List Event)) (k : Nat) : Nat :=
  countPosts (segs.getD k [])

/-- Destination posts attributable to the message at index k across a
sequence of runs. -/
def totalPostsAt (runs : List (List (List Event))) (k : Nat) : Nat :=
  (runs.map (fun segs => postsInRunAt segs k)).sum

theorem replay_runs_zero (env : Env) (dchs : List (Str × ChannelGet))
    (channel : SlackChannel) (users : List User) (pr : Str × ChannelGet)
    (hfound : dchs.find? (fun p => decide (p.1 = channel.name)) = some pr) :
    ∀ (n : Nat) (st : PipeState),
      (∀ m ∈ channel.messages,
        ∃ r, ledger_lookup st.db.posts channel.id (encodeTs m.ts) = some r) →
      (∀ segs ∈ (iter_runs env dchs channel users n st).2, ∀ k,
        postsInRunAt segs k = 0) := by
  intro n
  induction n with
  | zero =>
    intro st hpres segs hsegs k
    simp [iter_runs] at hsegs
  | succ n ihn =>
    intro st hpres segs hsegs k
    unfold iter_runs at hsegs
    rcases hrun : post_channel env dchs channel users st with ⟨st1, segs1, err1⟩
    rw [hrun] at hsegs
    simp only at hsegs
    unfold post_channel at hrun
    rw [hfound] at hrun
    have hrep := go_replay env (users.map (fun u => (u.id, u.readable_name)))
      channel.id pr.2.id channel.messages st st1 segs1 err1 hpres hrun
    rcases hit : iter_runs env dchs channel users n st1 with ⟨st2, runs2⟩
    rw [hit] at hsegs
    simp only [List.mem_cons] at hsegs
    rcases hsegs with hsegs | hsegs
    · subst hsegs
      unfold postsInRunAt
      by_cases hk : k < segs.length
      · have hmem : segs.getD k [] ∈ segs := by
          rw [List.getD_eq_getElem segs [] hk]
          exact segs.getElem_mem hk
        exact (hrep.1 _ hmem).1
      · rw [List.getD_eq_default segs [] (by omega)]
        rfl
    · have hpres1 : ∀ m ∈ channel.messages,
          ∃ r, ledger_lookup st1.db.posts channel.id (encodeTs m.ts) = some r := by
        intro m hm
        rw [hrep.2]
        exact hpres m hm
      have := ihn st1 hpres1
      rw [hit] at this
      exact this segs hsegs k

/-- C1: a message whose key (channel id, source timestamp) is already
ledgered when it is processed produces no destination post and no new
ledger row; consequently, over a first successful run followed by any
number of reruns, every source message receives exactly one destination
post.  Message keys are assumed pairwise distinct (the source timestamp
is the export's natural key) and absent before the first run. -/
theorem C1_exactly_once :
    (∀ (env : Env) (dict : List (Str × Str)) (sid did : Str) (st : PipeState)
       (m : Message) (ev : List Event) (st' : PipeState) (err : Option PipeError)
       (rec0 : PostRecord),
       process_message env dict sid did st m = (ev, st', err) →
       ledger_lookup st.db.posts sid (encodeTs m.ts) = some rec0 →
       countPosts ev = 0 ∧ insertedRecs ev = [] ∧ st'.db.posts = st.db.posts) ∧
    (∀ (env : Env) (dchs : List (Str × ChannelGet)) (channel : SlackChannel)
       (users : List User) (pr : Str × ChannelGet) (st0 st1 : PipeState)
       (segs1 : List (List Event)) (n k : Nat),
       dchs.find? (fun p => decide (p.1 = channel.name)) = some pr →
       (∀ m ∈ channel.messages,
         ledger_lookup st0.db.posts channel.id (encodeTs m.ts) = none) →
       List.Pairwise (fun x y => encodeTs x.ts ≠ encodeTs y.ts) channel.messages →
       post_channel env dchs channel users st0 = (st1, segs1, none) →
       k < channel.messages.length →
       totalPostsAt (segs1 :: (iter_runs env dchs channel users n st1).2) k = 1) := by
  constructor
  · intro env dict sid did st m ev st' err rec0 h hrec
    have hsp := process_message_spec _ _ _ _ _ _ _ _ _ h
    have hskip := hsp.2.2.1 rec0 hrec
    refine ⟨hskip.1, hskip.2.1, ?_⟩
    rw [hsp.1, hskip.2.1, List.append_nil]
  · intro env dchs channel users pr st0 st1 segs1 n k hfound habs hdist hrun hk
    have hrun' := hrun
    unfold post_channel at hrun'
    rw [hfound] at hrun'
    have hfr := go_fresh env (users.map (fun u => (u.id, u.readable_name)))
      channel.id pr.2.id channel.messages st0 st1 segs1 habs hdist hrun'
    have hone : postsInRunAt segs1 k = 1 := by
      unfold postsInRunAt
      exact hfr.2.1 k (by omega)
    have hzero := replay_runs_zero env dchs channel users pr hfound n st1 hfr.2.2
    unfold totalPostsAt
    rw [List.map_cons, List.sum_cons, hone]
    have : ((iter_runs env dchs channel users n st1).2.map
        (fun segs => postsInRunAt segs k)).sum = 0 := by
      apply List.sum_eq_zero
      intro x hx
      simp only [List.mem_map] at hx
      obtain ⟨segs, hsegs, hxeq⟩ := hx
      rw [← hxeq]
      exact hzero segs hsegs k
    rw [this]

/-! ### Concrete example used by witnesses

A two-message channel: a thread root (reply_count 1) at ts 1.0 and its
reply (thread_ts 1.0) at ts 2.0, against a discord oracle that answers
the three expected calls. -/

def envEx : Env where
  net := fun k =>
    match k with
    | 0 => .msg ⟨"M1".toList, "D".toList⟩
    | 1 => .chan ⟨"t".toList, "T".toList, .PublicThread, none, none⟩
    | 2 => .msg ⟨"M2".toList, "T".toList⟩
    | _ => .fail
  fileNet := fun _ => none
  renderTs := fun _ => "date".toList

def rootEx : Message :=
  ⟨"hello".toList, none, "U1".toList, none, ⟨1, 0⟩, some 1, none⟩

def replyEx : Message :=
  ⟨"hi".toList, none, "U2".toList, none, ⟨2, 0⟩, none, some ⟨1, 0⟩⟩

def channelEx : SlackChannel := ⟨"C1".toList, "general".toList, [rootEx, replyEx]⟩

def dchEx : ChannelGet := ⟨"general".toList, "D".toList, .GuildText, none, none⟩

def dchsEx : List (Str × ChannelGet) := [("general".toList, dchEx)]

def st0Ex : PipeState := ⟨⟨[], []⟩, 0⟩

/-- Witness for C1: the root message of the example channel receives
exactly one destination post over the first run plus one rerun. -/
theorem C1_exactly_once_witness :
    totalPostsAt ((post_channel envEx dchsEx channelEx [] st0Ex).2.1 ::
      (iter_runs envEx dchsEx channelEx [] 1
        (post_channel envEx dchsEx channelEx [] st0Ex).1).2) 0 = 1 :=
  C1_exactly_once.2 envEx dchsEx channelEx [] ("general".toList, dchEx) st0Ex
    (post_channel envEx dchsEx channelEx [] st0Ex).1
    (post_channel envEx dchsEx channelEx [] st0Ex).2.1 1 0
    (by decide) (by decide) (by decide) (by decide) (by decide)

/-- C9: processing a message pauses exactly once, for the fixed 1000 ms
interval, as the last action of the message (hence before any event of
the next message), whenever the message was freshly posted and its
processing succeeded; a message resolved as already migrated by the
dedup check is never followed by a pause, and neither is a failed one. -/
theorem C9_rate_limit_pause :
    ∀ (env : Env) (dict : List (Str × Str)) (sid did : Str) (st : PipeState)
      (m : Message) (ev : List Event) (st' : PipeState) (err : Option PipeError),
      process_message env dict sid did st m = (ev, st', err) →
      (∀ rec0, ledger_lookup st.db.posts sid (encodeTs m.ts) = some rec0 →
        countSleeps ev = 0) ∧
      (ledger_lookup st.db.posts sid (encodeTs m.ts) = none → err = none →
        countSleeps ev = 1 ∧ ev.getLast? = some (.sleepMs 1000)) ∧
      (err ≠ none → countSleeps ev = 0) := by
  intro env dict sid did st m ev st' err h
  have hsp := process_message_spec _ _ _ _ _ _ _ _ _ h
  refine ⟨?_, ?_, ?_⟩
  · intro rec0 hrec
    exact (hsp.2.2.1 rec0 hrec).2.2
  · intro hl herr
    have hf := hsp.2.2.2.1 hl herr
    exact ⟨hf.2.2.1, hf.2.2.2⟩
  · intro hne
    exact (hsp.2.2.2.2.1 hne).2

/-- Witness for C9: the example root message sleeps exactly once, as its
last event. -/
theorem C9_rate_limit_pause_witness :
    countSleeps (process_message envEx [] "C1".toList "D".toList st0Ex rootEx).1 = 1 ∧
    (process_message envEx [] "C1".toList "D".toList st0Ex rootEx).1.getLast? =
      some (.sleepMs 1000) :=
  (C9_rate_limit_pause envEx [] "C1".toList "D".toList st0Ex rootEx
      (process_message envEx [] "C1".toList "D".toList st0Ex rootEx).1
      (process_message envEx [] "C1".toList "D".toList st0Ex rootEx).2.1
      (process_message envEx [] "C1".toList "D".toList st0Ex rootEx).2.2
      rfl).2.1 (by decide) (by decide)

/-- C2 counterexample: in the example run the reply at ts 2.0 is posted
into its parent's destination thread T, yet the ledger row written for
it stores no thread id at all; the parent's destination thread id T is
not recorded against the reply, contradicting the claim. -/
theorem C2_counterexample :
    (post_channel envEx dchsEx channelEx [] st0Ex).2.2 = none ∧
    ledger_lookup (post_channel envEx dchsEx channelEx [] st0Ex).1.db.posts
        "C1".toList (encodeTs ⟨1, 0⟩) =
      some ⟨"M1".toList, "C1".toList, "D".toList, "1.0".toList, some "T".toList⟩ ∧
    ledger_lookup (post_channel envEx dchsEx channelEx [] st0Ex).1.db.posts
        "C1".toList (encodeTs ⟨2, 0⟩) =
      some ⟨"M2".toList, "C1".toList, "D".toList, "2.0".toList, none⟩ ∧
    ¬ (∃ r, ledger_lookup (post_channel envEx dchsEx channelEx [] st0Ex).1.db.posts
          "C1".toList (encodeTs ⟨2, 0⟩) = some r ∧
        r.discord_thread_id = some "T".toList) := by
  refine ⟨by decide, by decide, by decide, ?_⟩
  rintro ⟨r, hr, hrt⟩
  have : r = ⟨"M2".toList, "C1".toList, "D".toList, "2.0".toList, none⟩ := by
    have h2 : ledger_lookup (post_channel envEx dchsEx channelEx [] st0Ex).1.db.posts
        "C1".toList (encodeTs ⟨2, 0⟩) =
      some ⟨"M2".toList, "C1".toList, "D".toList, "2.0".toList, none⟩ := by decide
    rw [h2] at hr
    injection hr with hr
    exact hr.symm
  subst this
  exact absurd hrt (by decide)

/-- C2 (amended): a thread-reply message that is successfully posted is
posted into the parent's destination thread, and the ledger row written
for it stores no thread id of its own; the parent's destination thread
id determines the posting target but is not recorded in the reply's
row. -/
theorem C2_reply_row_amended :
    ∀ (env : Env) (dict : List (Str × Str)) (sid did : Str) (st : PipeState)
      (m : Message) (tts : TimeStamp) (ev : List Event) (st' : PipeState),
      m.thread_ts = some tts → m.reply_count = none →
      ledger_lookup st.db.posts sid (encodeTs m.ts) = none →
      process_message env dict sid did st m = (ev, st', none) →
      ∃ thread dtid, ∃ mg : MessageGet, ∃ fev files,
        ledger_lookup st.db.posts sid (encodeTs tts) = some thread ∧
        thread.discord_thread_id = some dtid ∧
        (∀ e ∈ fev, ∃ u, e = Event.netGetFile u) ∧
        ev = fev ++ [.postMessage dtid
            (replace_slack_id_to_real_name dict (render_text env m)) files,
          .ledgerInsert ⟨mg.id, sid, did, encodeTs m.ts, none⟩, .sleepMs 1000] ∧
        st'.db.posts = st.db.posts ++ [⟨mg.id, sid, did, encodeTs m.ts, none⟩] := by
  intro env dict sid did st m tts ev st' htt hrc hl h
  unfold process_message at h
  simp only [hl] at h
  have hfr := resolve_files_spec env.fileNet st.db (m.files.getD [])
  rcases hres : resolve_files env.fileNet st.db (m.files.getD []) with ⟨fev, db2, fres⟩
  rw [hres] at hfr h
  have hposts2 : db2.posts = st.db.posts := hfr.1
  rcases hcr : collectResults fres with e | files2
  · simp only [hcr, Prod.mk.injEq] at h
    exact absurd h.2.2 (by simp)
  · simp only [hcr, htt, hrc] at h
    rcases hpr : post_reply env sid did (encodeTs m.ts)
        (replace_slack_id_to_real_name dict (render_text env m)) files2
        ⟨db2, st.ctr⟩ tts with ⟨ev2, st2, err2⟩
    rw [hpr] at h
    simp only [Prod.mk.injEq] at h
    obtain ⟨hev, hst, herr⟩ := h
    subst hev; subst hst
    have hs := post_reply_spec _ _ _ _ _ _ _ _ _ _ _ hpr
    have hsucc : ∃ thread dtid mg,
        ledger_lookup db2.posts sid (encodeTs tts) = some thread ∧
        thread.discord_thread_id = some dtid ∧ env.net st.ctr = .msg mg ∧
        ev2 = [.postMessage dtid
            (replace_slack_id_to_real_name dict (render_text env m)) files2,
          .ledgerInsert ⟨mg.id, sid, did, encodeTs m.ts, none⟩, .sleepMs 1000] :=
      hs.2.2.2.1 herr
    obtain ⟨thread, dtid, mg, hth, hdt, hmg, hev2⟩ := hsucc
    have hs1 : st2.db.posts = db2.posts ++ insertedRecs ev2 := hs.1
    refine ⟨thread, dtid, mg, fev, files2, ?_, hdt, hfr.2, ?_, ?_⟩
    · rw [← hposts2]
      exact hth
    · rw [hev2]
    · rw [hs1, hev2, hposts2]
      rfl

/-- Witness for the amended C2 at the example reply, processed after its
parent has been ledgered with thread id T. -/
theorem C2_reply_row_amended_witness :
    ∃ thread dtid, ∃ mg : MessageGet, ∃ fev files,
      ledger_lookup (⟨⟨[⟨"M1".toList, "C1".toList, "D".toList, "1.0".toList,
          some "T".toList⟩], []⟩, 2⟩ : PipeState).db.posts
        "C1".toList (encodeTs ⟨1, 0⟩) = some thread ∧
      thread.discord_thread_id = some dtid ∧
      (∀ e ∈ fev, ∃ u, e = Event.netGetFile u) ∧
      (process_message envEx [] "C1".toList "D".toList
          ⟨⟨[⟨"M1".toList, "C1".toList, "D".toList, "1.0".toList,
            some "T".toList⟩], []⟩, 2⟩ replyEx).1 =
        fev ++ [.postMessage dtid
            (replace_slack_id_to_real_name [] (render_text envEx replyEx)) files,
          .ledgerInsert ⟨mg.id, "C1".toList, "D".toList, encodeTs replyEx.ts, none⟩,
          .sleepMs 1000] ∧
      (process_message envEx [] "C1".toList "D".toList
          ⟨⟨[⟨"M1".toList, "C1".toList, "D".toList, "1.0".toList,
            some "T".toList⟩], []⟩, 2⟩ replyEx).2.1.db.posts =
        (⟨⟨[⟨"M1".toList, "C1".toList, "D".toList, "1.0".toList,
          some "T".toList⟩], []⟩, 2⟩ : PipeState).db.posts ++
          [⟨mg.id, "C1".toList, "D".toList, encodeTs replyEx.ts, none⟩] :=
  C2_reply_row_amended envEx [] "C1".toList "D".toList
    ⟨⟨[⟨"M1".toList, "C1".toList, "D".toList, "1.0".toList, some "T".toList⟩], []⟩, 2⟩
    replyEx ⟨1, 0⟩
    (process_message envEx [] "C1".toList "D".toList
      ⟨⟨[⟨"M1".toList, "C1".toList, "D".toList, "1.0".toList, some "T".toList⟩], []⟩, 2⟩
      replyEx).1
    (process_message envEx [] "C1".toList "D".toList
      ⟨⟨[⟨"M1".toList, "C1".toList, "D".toList, "1.0".toList, some "T".toList⟩], []⟩, 2⟩
      replyEx).2.1
    rfl rfl (by decide) (by decide)

/-- C3: a thread-reply message (thread_ts present, reply_count absent)
that is not yet ledgered and whose attachments resolve fails with
OrphanReply when the parent key has no ledger row, and with
MissingThread when the parent's row carries no destination thread id;
in both cases nothing is posted and no ledger row is written. -/
theorem C3_reply_failures :
    ∀ (env : Env) (dict : List (Str × Str)) (sid did : Str) (st : PipeState)
      (m : Message) (tts : TimeStamp) (ev : List Event) (st' : PipeState)
      (err : Option PipeError) (files : List (Str × FilePost)),
      m.thread_ts = some tts → m.reply_count = none →
      ledger_lookup st.db.posts sid (encodeTs m.ts) = none →
      collectResults (resolve_files env.fileNet st.db (m.files.getD [])).2.2 =
        .ok files →
      process_message env dict sid did st m = (ev, st', err) →
      (ledger_lookup st.db.posts sid (encodeTs tts) = none →
        err = some .OrphanReply ∧ countPosts ev = 0 ∧ insertedRecs ev = [] ∧
        st'.db.posts = st.db.posts) ∧
      (∀ thread, ledger_lookup st.db.posts sid (encodeTs tts) = some thread →
        thread.discord_thread_id = none →
        err = some .MissingThread ∧ countPosts ev = 0 ∧ insertedRecs ev = [] ∧
        st'.db.posts = st.db.posts) := by
  intro env dict sid did st m tts ev st' err files htt hrc hl hok h
  unfold process_message at h
  simp only [hl] at h
  have hfr := resolve_files_spec env.fileNet st.db (m.files.getD [])
  rcases hres : resolve_files env.fileNet st.db (m.files.getD []) with ⟨fev, db2, fres⟩
  rw [hres] at hfr h hok
  have hposts2 : db2.posts = st.db.posts := hfr.1
  have hfev := netOnly_counts fev hfr.2
  simp only at hok
  rw [hok] at h
  simp only [htt, hrc] at h
  rcases hpr : post_reply env sid did (encodeTs m.ts)
      (replace_slack_id_to_real_name dict (render_text env m)) files
      ⟨db2, st.ctr⟩ tts with ⟨ev2, st2, err2⟩
  rw [hpr] at h
  simp only [Prod.mk.injEq] at h
  obtain ⟨hev, hst, herr⟩ := h
  subst hev; subst hst; subst herr
  have hs := post_reply_spec _ _ _ _ _ _ _ _ _ _ _ hpr
  constructor
  · intro hparent
    have hparent2 : ledger_lookup db2.posts sid (encodeTs tts) = none := by
      rw [hposts2]; exact hparent
    have horphan : err2 = some .OrphanReply ∧ ev2 = [] := hs.2.2.2.2.2.2.2.1 hparent2
    have hfail := hs.2.2.2.2.1 (by rw [horphan.1]; simp)
    refine ⟨horphan.1, ?_, ?_, ?_⟩
    · rw [countPosts_append, horphan.2]
      rw [hfev.2.1]
      rfl
    · rw [insertedRecs_append, horphan.2, hfev.1]
      rfl
    · have : st2.db = (⟨db2, st.ctr⟩ : PipeState).db := hfail.2.2
      rw [this]
      exact hposts2
  · intro thread hparent hnothread
    have hparent2 : ledger_lookup db2.posts sid (encodeTs tts) = some thread := by
      rw [hposts2]; exact hparent
    have hmiss : err2 = some .MissingThread ∧ ev2 = [] :=
      hs.2.2.2.2.2.2.2.2 thread hparent2 hnothread
    have hfail := hs.2.2.2.2.1 (by rw [hmiss.1]; simp)
    refine ⟨hmiss.1, ?_, ?_, ?_⟩
    · rw [countPosts_append, hmiss.2]
      rw [hfev.2.1]
      rfl
    · rw [insertedRecs_append, hmiss.2, hfev.1]
      rfl
    · have : st2.db = (⟨db2, st.ctr⟩ : PipeState).db := hfail.2.2
      rw [this]
      exact hposts2

/-- Witness for C3: the example reply processed against an empty ledger
fails with OrphanReply and posts nothing. -/
theorem C3_reply_failures_witness :
    (process_message envEx [] "C1".toList "D".toList st0Ex replyEx).2.2 =
      some .OrphanReply ∧
    countPosts (process_message envEx [] "C1".toList "D".toList st0Ex replyEx).1 = 0 ∧
    insertedRecs (process_message envEx [] "C1".toList "D".toList st0Ex replyEx).1 = [] ∧
    (process_message envEx [] "C1".toList "D".toList st0Ex replyEx).2.1.db.posts =
      st0Ex.db.posts :=
  (C3_reply_failures envEx [] "C1".toList "D".toList st0Ex replyEx ⟨1, 0⟩
      (process_message envEx [] "C1".toList "D".toList st0Ex replyEx).1
      (process_message envEx [] "C1".toList "D".toList st0Ex replyEx).2.1
      (process_message envEx [] "C1".toList "D".toList st0Ex replyEx).2.2
      [] rfl rfl (by decide) rfl rfl).1 (by decide)

/-- C5: a message with reply_count present that is not yet ledgered and
is successfully processed is posted as an ordinary message to the
destination channel; a destination thread is opened on the just-posted
message exactly when reply_count is positive, and the ledger row stores
the resulting thread id, or none when no thread was opened. -/
theorem C5_thread_root :
    ∀ (env : Env) (dict : List (Str × Str)) (sid did : Str) (st : PipeState)
      (m : Message) (rc : Nat) (ev : List Event) (st' : PipeState),
      m.reply_count = some rc →
      ledger_lookup st.db.posts sid (encodeTs m.ts) = none →
      process_message env dict sid did st m = (ev, st', none) →
      ∃ fev files, ∃ mg : MessageGet,
        (∀ e ∈ fev, ∃ u, e = Event.netGetFile u) ∧
        env.net st.ctr = .msg mg ∧
        (rc > 0 → ∃ cg : ChannelGet, env.net (st.ctr + 1) = .chan cg ∧
          ev = fev ++ [.postMessage did
              (replace_slack_id_to_real_name dict (render_text env m)) files,
            .startThread did mg.id "slack thread".toList,
            .ledgerInsert ⟨mg.id, sid, did, encodeTs m.ts, some cg.id⟩,
            .sleepMs 1000] ∧
          st'.db.posts = st.db.posts ++
            [⟨mg.id, sid, did, encodeTs m.ts, some cg.id⟩]) ∧
        (rc = 0 →
          ev = fev ++ [.postMessage did
              (replace_slack_id_to_real_name dict (render_text env m)) files,
            .ledgerInsert ⟨mg.id, sid, did, encodeTs m.ts, none⟩, .sleepMs 1000] ∧
          st'.db.posts = st.db.posts ++
            [⟨mg.id, sid, did, encodeTs m.ts, none⟩]) := by
  intro env dict sid did st m rc ev st' hrc hl h
  unfold process_message at h
  simp only [hl] at h
  have hfr := resolve_files_spec env.fileNet st.db (m.files.getD [])
  rcases hres : resolve_files env.fileNet st.db (m.files.getD []) with ⟨fev, db2, fres⟩
  rw [hres] at hfr h
  have hposts2 : db2.posts = st.db.posts := hfr.1
  rcases hcr : collectResults fres with e | files2
  · simp only [hcr, Prod.mk.injEq] at h
    exact absurd h.2.2 (by simp)
  · simp only [hcr, hrc] at h
    have hfinish : ∀ (ev2 : List Event) (st2 : PipeState) (err2 : Option PipeError),
        post_root env sid did (encodeTs m.ts)
          (replace_slack_id_to_real_name dict (render_text env m)) files2
          ⟨db2, st.ctr⟩ (some rc) = (ev2, st2, err2) →
        fev ++ ev2 = ev → st2 = st' → err2 = none →
        ∃ fev2 files, ∃ mg : MessageGet,
          (∀ e ∈ fev2, ∃ u, e = Event.netGetFile u) ∧
          env.net st.ctr = .msg mg ∧
          (rc > 0 → ∃ cg : ChannelGet, env.net (st.ctr + 1) = .chan cg ∧
            ev = fev2 ++ [.postMessage did
                (replace_slack_id_to_real_name dict (render_text env m)) files,
              .startThread did mg.id "slack thread".toList,
              .ledgerInsert ⟨mg.id, sid, did, encodeTs m.ts, some cg.id⟩,
              .sleepMs 1000] ∧
            st'.db.posts = st.db.posts ++
              [⟨mg.id, sid, did, encodeTs m.ts, some cg.id⟩]) ∧
          (rc = 0 →
            ev = fev2 ++ [.postMessage did
                (replace_slack_id_to_real_name dict (render_text env m)) files,
              .ledgerInsert ⟨mg.id, sid, did, encodeTs m.ts, none⟩, .sleepMs 1000] ∧
            st'.db.posts = st.db.posts ++
              [⟨mg.id, sid, did, encodeTs m.ts, none⟩]) := by
      intro ev2 st2 err2 hpr hev hst herr
      subst hev; subst hst; subst herr
      have hs := post_root_spec _ _ _ _ _ _ _ _ _ _ _ hpr
      have hs1 : st2.db.posts = db2.posts ++ insertedRecs ev2 := hs.1
      by_cases hrc0 : rc > 0
      · obtain ⟨mg, cg, hmg, hcg, hev2, hins⟩ :=
          hs.2.2.2.2.2.2.1 rc rfl hrc0 rfl
        refine ⟨fev, files2, mg, hfr.2, hmg, ?_, ?_⟩
        · intro _
          refine ⟨cg, hcg, by rw [hev2], ?_⟩
          rw [hs1, hins, hposts2]
        · intro hc0
          omega
      · have hrc0' : rc = 0 := by omega
        obtain ⟨mg, hmg, hev2, hins⟩ := hs.2.2.2.2.2.2.2.1 rc rfl hrc0' rfl
        refine ⟨fev, files2, mg, hfr.2, hmg, ?_, ?_⟩
        · intro hc
          omega
        · intro _
          refine ⟨by rw [hev2], ?_⟩
          rw [hs1, hins, hposts2]
    rcases htt : m.thread_ts with _ | tts
    all_goals simp only [htt] at h
    all_goals {
      rcases hpr : post_root env sid did (encodeTs m.ts)
          (replace_slack_id_to_real_name dict (render_text env m)) files2
          ⟨db2, st.ctr⟩ (some rc) with ⟨ev2, st2, err2⟩
      rw [hpr] at h
      simp only [Prod.mk.injEq] at h
      exact hfinish ev2 st2 err2 hpr h.1 h.2.1 h.2.2
    }

/-- Witness for C5: the example root message (reply_count 1) opens a
destination thread and ledgers its id. -/
theorem C5_thread_root_witness :
    ∃ fev files, ∃ mg : MessageGet,
      (∀ e ∈ fev, ∃ u, e = Event.netGetFile u) ∧
      envEx.net st0Ex.ctr = .msg mg ∧
      (1 > 0 → ∃ cg : ChannelGet, envEx.net (st0Ex.ctr + 1) = .chan cg ∧
        (process_message envEx [] "C1".toList "D".toList st0Ex rootEx).1 =
          fev ++ [.postMessage "D".toList
              (replace_slack_id_to_real_name [] (render_text envEx rootEx)) files,
            .startThread "D".toList mg.id "slack thread".toList,
            .ledgerInsert ⟨mg.id, "C1".toList, "D".toList, encodeTs rootEx.ts,
              some cg.id⟩, .sleepMs 1000] ∧
        (process_message envEx [] "C1".toList "D".toList st0Ex rootEx).2.1.db.posts =
          st0Ex.db.posts ++ [⟨mg.id, "C1".toList, "D".toList, encodeTs rootEx.ts,
            some cg.id⟩]) ∧
      (1 = 0 →
        (process_message envEx [] "C1".toList "D".toList st0Ex rootEx).1 =
          fev ++ [.postMessage "D".toList
              (replace_slack_id_to_real_name [] (render_text envEx rootEx)) files,
            .ledgerInsert ⟨mg.id, "C1".toList, "D".toList, encodeTs rootEx.ts, none⟩,
            .sleepMs 1000] ∧
        (process_message envEx [] "C1".toList "D".toList st0Ex rootEx).2.1.db.posts =
          st0Ex.db.posts ++ [⟨mg.id, "C1".toList, "D".toList, encodeTs rootEx.ts,
            none⟩]) :=
  C5_thread_root envEx [] "C1".toList "D".toList st0Ex rootEx 1
    (process_message envEx [] "C1".toList "D".toList st0Ex rootEx).1
    (process_message envEx [] "C1".toList "D".toList st0Ex rootEx).2.1
    rfl (by decide) (by decide)

/-- Each message inserts at most one ledger row, and that row carries
its key. -/
theorem process_message_insert_cases (env : Env) (dict : List (Str × Str))
    (sid did : Str) (st : PipeState) (m : Message) (ev : List Event)
    (st' : PipeState) (err : Option PipeError)
    (h : process_message env dict sid did st m = (ev, st', err)) :
    insertedRecs ev = [] ∨
    (∃ r, insertedRecs ev = [r] ∧ r.slack_ts = encodeTs m.ts) := by
  have hsp := process_message_spec _ _ _ _ _ _ _ _ _ h
  rcases err with _ | e
  · rcases hl : ledger_lookup st.db.posts sid (encodeTs m.ts) with _ | rec0
    · obtain ⟨r, hr⟩ := (hsp.2.2.2.1 hl rfl).2.1
      refine Or.inr ⟨r, hr, ?_⟩
      exact (hsp.2.1 r (by rw [hr]; exact List.mem_singleton.mpr rfl)).1
    · exact Or.inl (hsp.2.2.1 rec0 hl).2.1
  · exact Or.inl (hsp.2.2.2.2.1 (by simp)).1

/-- Along any run, the keys of the appended ledger rows form a sublist
of the message keys, in message order. -/
theorem go_keys_sublist (env : Env) (dict : List (Str × Str)) (sid did : Str) :
    ∀ (msgs : List Message) (st st' : PipeState) (segs : List (List Event))
      (err : Option PipeError),
      post_channel_go env dict sid did st msgs = (st', segs, err) →
      ∃ tail, st'.db.posts = st.db.posts ++ tail ∧
        (tail.map (fun r => r.slack_ts)).Sublist
          (msgs.map (fun m => encodeTs m.ts)) := by
  intro msgs
  induction msgs with
  | nil =>
    intro st st' segs err h
    unfold post_channel_go at h
    simp only [Prod.mk.injEq] at h
    obtain ⟨h1, _, _⟩ := h
    subst h1
    exact ⟨[], by simp, by simp⟩
  | cons m rest ih =>
    intro st st' segs err h
    unfold post_channel_go at h
    rcases hpm : process_message env dict sid did st m with ⟨ev, st1, err1⟩
    rw [hpm] at h
    have hsp := process_message_spec _ _ _ _ _ _ _ _ _ hpm
    have hcases := process_message_insert_cases _ _ _ _ _ _ _ _ _ hpm
    rcases err1 with _ | e
    · simp only at h
      rcases hgo : post_channel_go env dict sid did st1 rest with ⟨st2, segs2, err2⟩
      rw [hgo] at h
      simp only [Prod.mk.injEq] at h
      obtain ⟨h1, _, _⟩ := h
      subst h1
      obtain ⟨tail2, htail2, hsub2⟩ := ih st1 st2 segs2 err2 hgo
      refine ⟨insertedRecs ev ++ tail2, ?_, ?_⟩
      · rw [htail2, hsp.1, List.append_assoc]
      · rw [List.map_append, List.map_cons]
        rcases hcases with hnil | ⟨r, hr, hkey⟩
        · rw [hnil, List.map_nil, List.nil_append]
          exact hsub2.cons (encodeTs m.ts)
        · rw [hr, List.map_singleton, hkey, List.singleton_append]
          exact hsub2.cons₂ (encodeTs m.ts)
    · simp only [Prod.mk.injEq] at h
      obtain ⟨h1, _, _⟩ := h
      subst h1
      refine ⟨insertedRecs ev, hsp.1, ?_⟩
      rw [List.map_cons]
      rcases hcases with hnil | ⟨r, hr, hkey⟩
      · rw [hnil, List.map_nil]
        exact List.nil_sublist _
      · rw [hr, List.map_singleton, hkey]
        exact (List.nil_sublist _).cons₂ (encodeTs m.ts)

/-- In a key list without the first key and with pairwise distinct
entries, the two-key filter keeps exactly the second key. -/
theorem filter_single_key :
    ∀ (keys : List Str) (ka kb : Str), kb ∈ keys → ka ∉ keys →
      keys.Pairwise (fun x y => x ≠ y) →
      keys.filter (fun k => decide (k = ka ∨ k = kb)) = [kb] := by
  intro keys
  induction keys with
  | nil => intro ka kb hb _ _; simp at hb
  | cons k ks ih =>
    intro ka kb hb ha hdist
    by_cases hk : k = kb
    · subst hk
      have hnotin : k ∉ ks := by
        intro hmem
        exact absurd rfl ((List.pairwise_cons.mp hdist).1 k hmem)
      rw [List.filter_cons, if_pos (by simp)]
      congr 1
      apply List.filter_eq_nil_iff.mpr
      intro x hx
      simp only [decide_eq_true_eq]
      rintro (hxa | hxb)
      · exact (ha (List.mem_cons_of_mem k (hxa ▸ hx))).elim
      · exact (hnotin (hxb ▸ hx)).elim
    · have hka : k ≠ ka := by
        intro hkk
        exact ha (hkk ▸ List.mem_cons_self k ks)
      have hbks : kb ∈ ks := by
        rcases List.mem_cons.mp hb with h | h
        · exact absurd h.symm hk
        · exact h
      rw [List.filter_cons, if_neg (by simp [hka, hk])]
      exact ih ka kb hbks (fun hmem => ha (List.mem_cons_of_mem k hmem))
        (List.pairwise_cons.mp hdist).2

theorem tlt_not_tle (a b : TimeStamp) (h : a.tlt b) : ¬ b.tle a := by
  unfold TimeStamp.tlt at h
  unfold TimeStamp.tle
  omega

/-- In a sorted message list with pairwise distinct keys, the two-key
filter of the key list yields the earlier key first. -/
theorem msgs_two_key_filter :
    ∀ (msgs : List Message) (a b : Message),
      List.Sorted msgLe msgs →
      List.Pairwise (fun x y => encodeTs x.ts ≠ encodeTs y.ts) msgs →
      a ∈ msgs → b ∈ msgs → a.ts.tlt b.ts →
      (msgs.map (fun m => encodeTs m.ts)).filter
        (fun k => decide (k = encodeTs a.ts ∨ k = encodeTs b.ts)) =
      [encodeTs a.ts, encodeTs b.ts] := by
  intro msgs
  induction msgs with
  | nil => intro a b _ _ ha _ _; simp at ha
  | cons m rest ih =>
    intro a b hsort hdist ha hb hlt
    have hab : a ≠ b := by
      intro hcontra
      subst hcontra
      unfold TimeStamp.tlt at hlt
      omega
    rcases List.mem_cons.mp ha with ha0 | ha0
    · subst ha0
      have hb0 : b ∈ rest := by
        rcases List.mem_cons.mp hb with h | h
        · exact absurd h.symm hab
        · exact h
      rw [List.map_cons, List.filter_cons, if_pos (by simp)]
      congr 1
      apply filter_single_key
      · exact List.mem_map.mpr ⟨b, hb0, rfl⟩
      · intro hmem
        obtain ⟨x, hx, hxeq⟩ := List.mem_map.mp hmem
        exact (List.pairwise_cons.mp hdist).1 x hx hxeq.symm
      · exact List.pairwise_map.mpr
          (((List.pairwise_cons.mp hdist).2).imp (fun hxy => hxy))
    · rcases List.mem_cons.mp hb with hb0 | hb0
      · subst hb0
        have hle : msgLe b a := (List.sorted_cons.mp hsort).1 a ha0
        exact absurd hle (tlt_not_tle a.ts b.ts hlt)
      · have hne1 : encodeTs m.ts ≠ encodeTs a.ts :=
          (List.pairwise_cons.mp hdist).1 a ha0
        have hne2 : encodeTs m.ts ≠ encodeTs b.ts :=
          (List.pairwise_cons.mp hdist).1 b hb0
        rw [List.map_cons, List.filter_cons, if_neg (by simp [hne1, hne2])]
        exact ih a b (List.sorted_cons.mp hsort).2 (List.pairwise_cons.mp hdist).2
          ha0 hb0 hlt

theorem sublist_pair_eq {l : List Str} {ka kb : Str} (hs : l.Sublist [ka, kb])
    (hka : ka ∈ l) (hkb : kb ∈ l) (hne : ka ≠ kb) : l = [ka, kb] := by
  have hlen : l.length ≤ 2 := by simpa using hs.length_le
  have h2 : 2 ≤ l.length := by
    rcases l with _ | ⟨x, _ | ⟨y, r⟩⟩
    · simp at hka
    · simp only [List.mem_singleton] at hka hkb
      exact absurd (hka.trans hkb.symm) hne
    · simp only [List.length_cons]
      omega
  exact hs.eq_of_length (by simpa using le_antisymm hlen h2)

theorem filter_map_slack_ts (l : List PostRecord) (p : Str → Prop)
    [DecidablePred p] :
    (l.filter (fun r => decide (p r.slack_ts))).map (fun r => r.slack_ts) =
    (l.map (fun r => r.slack_ts)).filter (fun k => decide (p k)) := by
  induction l with
  | nil => rfl
  | cons r rest ih =>
    rw [List.map_cons, List.filter_cons, List.filter_cons]
    by_cases hp : p r.slack_ts
    · rw [if_pos (by simpa), if_pos (by simpa), List.map_cons, ih]
    · rw [if_neg (by simpa), if_neg (by simpa), ih]

theorem ledger_lookup_key_mem {posts : List PostRecord} {sid key : Str}
    {r : PostRecord} (h : ledger_lookup posts sid key = some r) :
    key ∈ posts.map (fun r => r.slack_ts) := by
  unfold ledger_lookup at h
  have hmem := List.mem_of_find?_eq_some h
  have hpred := List.find?_some h
  simp only [decide_eq_true_eq] at hpred
  exact List.mem_map.mpr ⟨r, hmem, hpred.1⟩

/-- C4: get_channels_stream returns each channel's messages sorted
ascending by timestamp, and post_channel processes them in that order,
so when two messages a and b with a.ts earlier than b.ts are both
ledgered by a run over the sorted list starting from an empty ledger,
the final posts table contains a's row strictly before b's row
(restricting the table to the two keys yields a's key first).  Message
keys are assumed pairwise distinct (the timestamp is the export's
natural key). -/
theorem C4_order_preservation :
    (∀ (channels : List SlackChannel), ∀ ch ∈ get_channels_stream channels,
      List.Sorted msgLe ch.messages) ∧
    (∀ (env : Env) (dict : List (Str × Str)) (sid did : Str)
       (msgs : List Message) (st st' : PipeState) (segs : List (List Event))
       (err : Option PipeError) (a b : Message),
      post_channel_go env dict sid did st msgs = (st', segs, err) →
      List.Sorted msgLe msgs →
      List.Pairwise (fun x y => encodeTs x.ts ≠ encodeTs y.ts) msgs →
      st.db.posts = [] →
      a ∈ msgs → b ∈ msgs → a.ts.tlt b.ts →
      (∃ ra, ledger_lookup st'.db.posts sid (encodeTs a.ts) = some ra) →
      (∃ rb, ledger_lookup st'.db.posts sid (encodeTs b.ts) = some rb) →
      ((st'.db.posts.filter (fun r =>
          decide (r.slack_ts = encodeTs a.ts ∨ r.slack_ts = encodeTs b.ts))).map
        (fun r => r.slack_ts)) = [encodeTs a.ts, encodeTs b.ts]) := by
  constructor
  · intro channels ch hch
    unfold get_channels_stream at hch
    obtain ⟨ch0, _, hch0⟩ := List.mem_map.mp hch
    rw [← hch0]
    exact List.sorted_insertionSort msgLe ch0.messages
  · intro env dict sid did msgs st st' segs err a b hgo hsort hdist hempty
      ha hb hlt hra hrb
    obtain ⟨ra, hra⟩ := hra
    obtain ⟨rb, hrb⟩ := hrb
    obtain ⟨tail, htail, hsub⟩ := go_keys_sublist env dict sid did msgs st st' segs err hgo
    rw [hempty, List.nil_append] at htail
    have hane : a ≠ b := by
      intro hcontra
      subst hcontra
      unfold TimeStamp.tlt at hlt
      omega
    have hkne : encodeTs a.ts ≠ encodeTs b.ts := by
      have hsym : Symmetric (fun x y : Message => encodeTs x.ts ≠ encodeTs y.ts) :=
        fun x y hxy => hxy.symm
      exact hdist.forall hsym ha hb hane
    have hswap := filter_map_slack_ts st'.db.posts
      (fun k => k = encodeTs a.ts ∨ k = encodeTs b.ts)
    rw [hswap]
    have hkeys : (msgs.map (fun m => encodeTs m.ts)).filter
        (fun k => decide (k = encodeTs a.ts ∨ k = encodeTs b.ts)) =
        [encodeTs a.ts, encodeTs b.ts] :=
      msgs_two_key_filter msgs a b hsort hdist ha hb hlt
    have hsubf : ((st'.db.posts.map (fun r => r.slack_ts)).filter
        (fun k => decide (k = encodeTs a.ts ∨ k = encodeTs b.ts))).Sublist
        [encodeTs a.ts, encodeTs b.ts] := by
      rw [← hkeys, htail]
      exact hsub.filter _
    have hma : encodeTs a.ts ∈ (st'.db.posts.map (fun r => r.slack_ts)).filter
        (fun k => decide (k = encodeTs a.ts ∨ k = encodeTs b.ts)) := by
      rw [List.mem_filter]
      exact ⟨ledger_lookup_key_mem hra, by simp⟩
    have hmb : encodeTs b.ts ∈ (st'.db.posts.map (fun r => r.slack_ts)).filter
        (fun k => decide (k = encodeTs a.ts ∨ k = encodeTs b.ts)) := by
      rw [List.mem_filter]
      exact ⟨ledger_lookup_key_mem hrb, by simp⟩
    exact sublist_pair_eq hsubf hma hmb hkne

/-- Witness for C4: sortedness of the example channel after
get_channels_stream, and order of the example run's two ledger rows. -/
theorem C4_order_preservation_witness :
    (∀ ch ∈ get_channels_stream [channelEx], List.Sorted msgLe ch.messages) ∧
    (((post_channel envEx dchsEx channelEx [] st0Ex).1.db.posts.filter (fun r =>
        decide (r.slack_ts = encodeTs ⟨1, 0⟩ ∨ r.slack_ts = encodeTs ⟨2, 0⟩))).map
      (fun r => r.slack_ts)) = [encodeTs ⟨1, 0⟩, encodeTs ⟨2, 0⟩] := by
  constructor
  · exact C4_order_preservation.1 [channelEx]
  · exact C4_order_preservation.2 envEx [] "C1".toList "D".toList
      channelEx.messages st0Ex
      (post_channel envEx dchsEx channelEx [] st0Ex).1
      (post_channel envEx dchsEx channelEx [] st0Ex).2.1
      (post_channel envEx dchsEx channelEx [] st0Ex).2.2
      rootEx replyEx (by decide) (by decide) (by decide) rfl
      (by decide) (by decide) (by decide)
      ⟨⟨"M1".toList, "C1".toList, "D".toList, "1.0".toList, some "T".toList⟩,
        by decide⟩
      ⟨⟨"M2".toList, "C1".toList, "D".toList, "2.0".toList, none⟩, by decide⟩

/-! ### Substitution order independence -/

/-- Two character lists share no character. -/
def charsDisj (x y : Str) : Prop := ∀ c ∈ x, c ∉ y

instance (x y : Str) : Decidable (charsDisj x y) := by
  unfold charsDisj; infer_instance

theorem charsDisj_symm {x y : Str} (h : charsDisj x y) : charsDisj y x :=
  fun c hcy hcx => h c hcx hcy

/-- Independence of two dictionary entries: their ids share no
character, and neither id shares a character with the other's
replacement value. -/
def entryDisj (p q : Str × Str) : Prop :=
  charsDisj p.1 q.1 ∧ charsDisj p.1 q.2 ∧ charsDisj q.1 p.2

instance (p q : Str × Str) : Decidable (entryDisj p q) := by
  unfold entryDisj; infer_instance

theorem entryDisj_symm : Symmetric entryDisj := by
  intro p q h
  exact ⟨charsDisj_symm h.1, h.2.2, h.2.1⟩

theorem head_mem_of_isPrefixOf {q : Str} {x : Char} {rest : Str}
    (hq : q ≠ []) (h : q.isPrefixOf (x :: rest) = true) : x ∈ q := by
  match q, hq with
  | qh :: q', _ =>
    have : (qh == x && q'.isPrefixOf rest) = true := h
    rw [Bool.and_eq_true, beq_iff_eq] at this
    exact this.1 ▸ List.mem_cons_self qh q'

theorem isPrefixOf_append_self (p t : Str) : p.isPrefixOf (p ++ t) = true := by
  rw [List.isPrefixOf_iff_prefix]
  exact ⟨t, rfl⟩

/-- A pattern sharing no character with a leading segment skips it. -/
theorem rustReplace_skip (p r : Str) (hp : p ≠ []) :
    ∀ (a t : Str), charsDisj a p →
      rustReplace p r (a ++ t) = a ++ rustReplace p r t := by
  intro a
  induction a with
  | nil => intro t _; rw [List.nil_append, List.nil_append]
  | cons x a' ih =>
    intro t hd
    rw [List.cons_append, rustReplace_cons]
    have hnm : ¬ (p ≠ [] ∧ p.isPrefixOf (x :: (a' ++ t)) = true) := by
      rintro ⟨_, hpre⟩
      exact hd x (List.mem_cons_self x a') (head_mem_of_isPrefixOf hp hpre)
    rw [if_neg hnm, if_neg hp]
    rw [List.nil_append, List.cons_append]
    congr 1
    exact ih t (fun c hc => hd c (List.mem_cons_of_mem x hc))

/-- A pattern at the head of the text is replaced. -/
theorem rustReplace_head_match (p r t : Str) (hp : p ≠ []) :
    rustReplace p r (p ++ t) = r ++ rustReplace p r t := by
  match p, hp with
  | ph :: p', _ =>
    rw [List.cons_append, rustReplace_cons]
    rw [if_pos ⟨by simp, by rw [← List.cons_append]; exact isPrefixOf_append_self _ t⟩]
    congr 2
    simp only [List.length_cons]
    rw [Nat.add_sub_cancel]
    exact List.drop_left p' t

/-- Replacement of a disjoint pattern creates no new match of q at the
front of the text. -/
theorem rustReplace_no_new_prefix (p r : Str) (hp : p ≠ []) (hr : r ≠ []) :
    ∀ (t q : Str), q ≠ [] → charsDisj q p → charsDisj q r →
      ¬ q.isPrefixOf t = true → ¬ q.isPrefixOf (rustReplace p r t) = true := by
  intro t
  induction t with
  | nil =>
    intro q hq _ _ hnq
    rw [rustReplace_nil, if_neg hp]
    exact hnq
  | cons c rest ih =>
    intro q hq hqp hqr hnq hq2
    rw [rustReplace_cons] at hq2
    by_cases hm : p ≠ [] ∧ p.isPrefixOf (c :: rest) = true
    · rw [if_pos hm] at hq2
      match r, hr with
      | rh :: r', _ =>
        have hrh : rh ∈ q := head_mem_of_isPrefixOf hq (by
          rw [List.cons_append] at hq2
          exact hq2)
        exact hqr rh hrh (List.mem_cons_self rh r')
    · rw [if_neg hm, if_neg hp, List.nil_append] at hq2
      match q, hq with
      | qh :: q', _ =>
        have hsplit : (qh == c && q'.isPrefixOf (rustReplace p r rest)) = true := hq2
        rw [Bool.and_eq_true, beq_iff_eq] at hsplit
        obtain ⟨hqc, hq'⟩ := hsplit
        subst hqc
        rcases hq'' : q' with _ | ⟨q0, q1⟩
        · subst hq''
          apply hnq
          show ([qh].isPrefixOf (qh :: rest)) = true
          simp [List.isPrefixOf]
        · subst hq''
          refine ih (q0 :: q1) (by simp)
            (fun x hx => hqp x (List.mem_cons_of_mem qh hx))
            (fun x hx => hqr x (List.mem_cons_of_mem qh hx)) ?_ hq'
          intro hpre
          apply hnq
          show ((qh :: q0 :: q1).isPrefixOf (qh :: rest)) = true
          have : ((qh :: q0 :: q1).isPrefixOf (qh :: rest)) =
              (qh == qh && (q0 :: q1).isPrefixOf rest) := rfl
          rw [this, Bool.and_eq_true, beq_iff_eq]
          exact ⟨rfl, hpre⟩

/-- Replacements for two entries with disjoint characters commute. -/
theorem rustReplace_comm (p₁ r₁ p₂ r₂ : Str)
    (hp₁ : p₁ ≠ []) (hp₂ : p₂ ≠ []) (hr₁ : r₁ ≠ []) (hr₂ : r₂ ≠ [])
    (h12 : charsDisj p₁ p₂) (h1r2 : charsDisj p₁ r₂) (h2r1 : charsDisj p₂ r₁) :
    ∀ (n : Nat) (s : Str), s.length ≤ n →
      rustReplace p₂ r₂ (rustReplace p₁ r₁ s) =
      rustReplace p₁ r₁ (rustReplace p₂ r₂ s) := by
  have hz : ∀ (p r : Str), p ≠ [] → rustReplace p r [] = [] := by
    intro p r hp
    rw [rustReplace_nil, if_neg hp]
  intro n
  induction n with
  | zero =>
    intro s hs
    have : s = [] := List.length_eq_zero.mp (by omega)
    subst this
    simp only [hz p₁ r₁ hp₁, hz p₂ r₂ hp₂]
  | succ n ih =>
    intro s hs
    rcases s with _ | ⟨c, rest⟩
    · simp only [hz p₁ r₁ hp₁, hz p₂ r₂ hp₂]
    · by_cases hm₁ : p₁.isPrefixOf (c :: rest) = true
      · obtain ⟨s', hs'⟩ : ∃ s', c :: rest = p₁ ++ s' := by
          rw [List.isPrefixOf_iff_prefix] at hm₁
          obtain ⟨s', hs'⟩ := hm₁
          exact ⟨s', hs'.symm⟩
        have hlen : s'.length ≤ n := by
          have h1 : (c :: rest).length = p₁.length + s'.length := by
            rw [hs', List.length_append]
          have h2 : 1 ≤ p₁.length := by
            rcases p₁ with _ | _
            · exact absurd rfl hp₁
            · simp
          simp only [List.length_cons] at hs h1
          omega
        rw [hs']
        rw [rustReplace_head_match p₁ r₁ s' hp₁]
        rw [rustReplace_skip p₂ r₂ hp₂ r₁ _ (charsDisj_symm h2r1)]
        rw [rustReplace_skip p₂ r₂ hp₂ p₁ s' h12]
        rw [rustReplace_head_match p₁ r₁ _ hp₁]
        congr 1
        exact ih s' hlen
      · by_cases hm₂ : p₂.isPrefixOf (c :: rest) = true
        · obtain ⟨s', hs'⟩ : ∃ s', c :: rest = p₂ ++ s' := by
            rw [List.isPrefixOf_iff_prefix] at hm₂
            obtain ⟨s', hs'⟩ := hm₂
            exact ⟨s', hs'.symm⟩
          have hlen : s'.length ≤ n := by
            have h1 : (c :: rest).length = p₂.length + s'.length := by
              rw [hs', List.length_append]
            have h2 : 1 ≤ p₂.length := by
              rcases p₂ with _ | _
              · exact absurd rfl hp₂
              · simp
            simp only [List.length_cons] at hs h1
            omega
          rw [hs']
          rw [rustReplace_head_match p₂ r₂ s' hp₂]
          rw [rustReplace_skip p₁ r₁ hp₁ r₂ _ (charsDisj_symm h1r2)]
          rw [rustReplace_skip p₁ r₁ hp₁ p₂ s' (charsDisj_symm h12)]
          rw [rustReplace_head_match p₂ r₂ _ hp₂]
          congr 1
          exact ih s' hlen
        · have e₁ : rustReplace p₁ r₁ (c :: rest) = c :: rustReplace p₁ r₁ rest := by
            rw [rustReplace_cons, if_neg (fun hh => hm₁ hh.2), if_neg hp₁,
              List.nil_append]
          have e₂ : rustReplace p₂ r₂ (c :: rest) = c :: rustReplace p₂ r₂ rest := by
            rw [rustReplace_cons, if_neg (fun hh => hm₂ hh.2), if_neg hp₂,
              List.nil_append]
          have hn₂ : ¬ p₂.isPrefixOf (c :: rustReplace p₁ r₁ rest) = true := by
            have := rustReplace_no_new_prefix p₁ r₁ hp₁ hr₁ (c :: rest) p₂ hp₂
              (charsDisj_symm h12) h2r1 hm₂
            rw [e₁] at this
            exact this
          have hn₁ : ¬ p₁.isPrefixOf (c :: rustReplace p₂ r₂ rest) = true := by
            have := rustReplace_no_new_prefix p₂ r₂ hp₂ hr₂ (c :: rest) p₁ hp₁
              h12 h1r2 hm₁
            rw [e₂] at this
            exact this
          rw [e₁, e₂]
          rw [rustReplace_cons, if_neg (fun hh => hn₂ hh.2), if_neg hp₂,
            List.nil_append]
          rw [rustReplace_cons, if_neg (fun hh => hn₁ hh.2), if_neg hp₁,
            List.nil_append]
          congr 1
          exact ih rest (by simp only [List.length_cons] at hs; omega)

/-- C6 counterexample: two dictionaries that are permutations of each
other, whose id keys are disjoint strings (distinct, and neither occurs
inside the other), give different outputs, because the replacement value
of one entry contains the other entry's id.  Iteration order of the
HashMap therefore changes the result, contradicting the claim. -/
theorem C6_counterexample :
    List.Perm [("U1".toList, "U2".toList), ("U2".toList, "X".toList)]
      [("U2".toList, "X".toList), ("U1".toList, "U2".toList)] ∧
    "U1".toList ≠ "U2".toList ∧
    ¬ List.IsInfix "U1".toList "U2".toList ∧
    ¬ List.IsInfix "U2".toList "U1".toList ∧
    replace_slack_id_to_real_name
        [("U1".toList, "U2".toList), ("U2".toList, "X".toList)] "U1".toList ≠
      replace_slack_id_to_real_name
        [("U2".toList, "X".toList), ("U1".toList, "U2".toList)] "U1".toList := by
  refine ⟨?_, by decide, by decide, by decide, by decide⟩
  decide

/-- C6 (amended): replace_slack_id_to_real_name is a pure fold of
literal substring replacement: an id is replaced wherever it occurs,
also in the middle of a larger token (first conjunct); and the output
is independent of the dictionary's iteration order provided the
entries are independent, that is, all ids and replacement values are
nonempty, distinct ids share no character, and no id shares a character
with another entry's replacement value (second conjunct). -/
theorem C6_substitution_amended :
    (∀ (pat rep a t : Str), pat ≠ [] → charsDisj a pat →
      rustReplace pat rep (a ++ (pat ++ t)) = a ++ (rep ++ rustReplace pat rep t)) ∧
    (∀ (dict₁ dict₂ : List (Str × Str)) (src : Str),
      dict₁.Perm dict₂ →
      (∀ p ∈ dict₁, p.1 ≠ [] ∧ p.2 ≠ []) →
      List.Pairwise entryDisj dict₁ →
      replace_slack_id_to_real_name dict₁ src =
        replace_slack_id_to_real_name dict₂ src) := by
  constructor
  · intro pat rep a t hp hd
    rw [rustReplace_skip pat rep hp a _ hd, rustReplace_head_match pat rep t hp]
  · intro dict₁ dict₂ src hperm hne hdisj
    unfold replace_slack_id_to_real_name
    apply hperm.foldl_eq'
    intro x hx y hy z
    by_cases hxy : x = y
    · rw [hxy]
    · have hed : entryDisj x y := hdisj.forall entryDisj_symm hx hy hxy
      show rustReplace y.1 y.2 (rustReplace x.1 x.2 z) =
        rustReplace x.1 x.2 (rustReplace y.1 y.2 z)
      exact rustReplace_comm x.1 x.2 y.1 y.2
        (hne x hx).1 (hne y hy).1 (hne x hx).2 (hne y hy).2
        hed.1 hed.2.1 hed.2.2 z.length z (le_refl _)

/-- Witness for the amended C6: two independent entries applied in
either order give the same output on a text containing both ids. -/
theorem C6_substitution_amended_witness :
    replace_slack_id_to_real_name
        [("ab".toList, "xy".toList), ("cd".toList, "uv".toList)] "zabzcdz".toList =
      replace_slack_id_to_real_name
        [("cd".toList, "uv".toList), ("ab".toList, "xy".toList)] "zabzcdz".toList :=
  C6_substitution_amended.2
    [("ab".toList, "xy".toList), ("cd".toList, "uv".toList)]
    [("cd".toList, "uv".toList), ("ab".toList, "xy".toList)]
    "zabzcdz".toList (by decide) (by decide) (by decide)
